import Mathlib

/-!
Shallow embedding of the EROFS engine of the archivefs repository
(packages `erofs`: reader.go, erofs.go, and the image writer), together
with proofs about the claims of its specification.

Modelling conventions:
* machine integers are `Nat` with explicit `% 2^w` (or masking) exactly where
  the Go code truncates or wraps;
* the image byte source (`io.ReaderAt`) is a total function `Nat → Nat`
  together with a size; a read past the size fails with a short-read error,
  and each byte is reduced `% 256` (the Go reader always yields bytes);
* fallible Go functions return `Except RErr α`; the `panic(err)` in
  `dirEntry.getInode` is modelled by a dedicated failure constructor;
* names follow the Go source where Lean allows it (the Go method
  `Image.Inode` is renamed `Image.inode` because `Inode` is the record type).
-/

/-- Decidable equality of Except values, used to evaluate the model on
concrete inputs. -/
instance {e a : Type} [DecidableEq e] [DecidableEq a] : DecidableEq (Except e a) :=
  fun x y =>
    match x, y with
    | .error ex, .error ey =>
      if h : ex = ey then isTrue (congrArg Except.error h)
      else isFalse (fun hc => h (Except.error.injEq ex ey ▸ hc))
    | .error ex, .ok ay => isFalse (fun hc => Except.noConfusion hc)
    | .ok ax, .error ey => isFalse (fun hc => Except.noConfusion hc)
    | .ok ax, .ok ay =>
      if h : ax = ay then isTrue (congrArg Except.ok h)
      else isFalse (fun hc => h (Except.ok.injEq ax ay ▸ hc))

namespace Erofs

/-- Little-endian decoding of (up to) two bytes, as binary.LittleEndian.Uint16. -/
def le16 (b : List Nat) : Nat := b.getD 0 0 + 256 * b.getD 1 0

/-- Little-endian decoding of four bytes. -/
def le32 (b : List Nat) : Nat := le16 (b.take 2) + 2 ^ 16 * le16 (b.drop 2)

/-- Little-endian decoding of eight bytes. -/
def le64 (b : List Nat) : Nat := le32 (b.take 4) + 2 ^ 32 * le32 (b.drop 4)

/-- Little-endian encoding of a uint8. -/
def e8 (n : Nat) : List Nat := [n % 256]

/-- Little-endian encoding of a uint16. -/
def e16 (n : Nat) : List Nat := [n % 256, n / 256 % 256]

/-- Little-endian encoding of a uint32. -/
def e32 (n : Nat) : List Nat := e16 n ++ e16 (n / 2 ^ 16)

/-- Little-endian encoding of a uint64. -/
def e64 (n : Nat) : List Nat := e32 n ++ e32 (n / 2 ^ 32)

/-- Model of Go bytes.Compare: lexicographic three-way comparison of byte
slices, returning -1, 0 or 1. -/
def compareBytes : List Nat → List Nat → Int
  | [], [] => 0
  | [], _ :: _ => -1
  | _ :: _, [] => 1
  | a :: as, b :: bs => if a < b then -1 else if b < a then 1 else compareBytes as bs

/-- Strict lexicographic order on byte strings: the order bytes.Compare
decides, used to state the EROFS sortedness invariant. -/
def nameLt (a b : List Nat) : Prop := compareBytes a b = -1

instance (a b : List Nat) : Decidable (nameLt a b) := by
  unfold nameLt
  infer_instance

/-! CRC32 with the Castagnoli polynomial, modelling Go's hash/crc32 package.
Go's `crc32.Update` complements the running value on entry and exit, so that
`Checksum(data) = Update(0, data)` computes the standard reflected CRC32C. -/

/-- One shift-step of the reflected CRC32C division (polynomial 0x82F63B78). -/
def crcStep (c : Nat) : Nat := if c % 2 = 1 then 0x82F63B78 ^^^ (c / 2) else c / 2

/-- Entry `idx` of the CRC32C lookup table (eight shift-steps of the index). -/
def crc32cTableEntry (idx : Nat) : Nat := crcStep^[8] idx

/-- Process a single byte of input, as the table-driven loop in hash/crc32. -/
def crcUpdateByte (c b : Nat) : Nat := crc32cTableEntry ((c ^^^ b) % 256) ^^^ (c / 256)

/-- Process a byte string (the core loop, without the entry/exit complement). -/
def crcProcess (c : Nat) (data : List Nat) : Nat := data.foldl crcUpdateByte c

/-- Bitwise complement on uint32. -/
def comp32 (n : Nat) : Nat := 0xFFFFFFFF ^^^ (n % 2 ^ 32)

/-- Model of Go crc32.Update(crc, castagnoliTable, data). -/
def goCrcUpdate (crc : Nat) (data : List Nat) : Nat := comp32 (crcProcess (comp32 crc) data)

/-- Model of Go crc32.Checksum(data, castagnoliTable). -/
def goCrcChecksum (data : List Nat) : Nat := goCrcUpdate 0 data

/-! Superblock codec (reader.go). -/

/-- Filesystem magic number (reader.go SuperBlockMagicV1). -/
def SuperBlockMagicV1 : Nat := 0xe0f5e1e2

/-- Byte offset of the superblock within the image (reader.go SuperBlockOffset). -/
def SuperBlockOffset : Nat := 1024

/-- Inode slot size in bit shift (reader.go InodeSlotBits). -/
def InodeSlotBits : Nat := 5

/-- Max file name length (reader.go MaxNameLen). -/
def MaxNameLen : Nat := 255

/-- Compatible-feature flag: superblock checksum present (bit 0). -/
def FeatureCompatSuperBlockChecksum : Nat := 0x00000001

/-- On-disk superblock (reader.go, struct SuperBlock; 128 bytes). -/
structure SuperBlock where
  Magic : Nat
  Checksum : Nat
  FeatureCompat : Nat
  BlockSizeBits : Nat
  ExtSlots : Nat
  RootNid : Nat
  Inodes : Nat
  BuildTime : Nat
  BuildTimeNsec : Nat
  Blocks : Nat
  MetaBlockAddr : Nat
  XattrBlockAddr : Nat
  UUID : List Nat
  VolumeName : List Nat
  FeatureIncompat : Nat
  Union1 : Nat
  ExtraDevices : Nat
  DevTableSlotOff : Nat
  Reserved : List Nat
deriving DecidableEq, Repr

/-- The all-zero superblock (the Go zero value, with empty byte arrays). -/
def SuperBlock.zero : SuperBlock :=
  ⟨0, 0, 0, 0, 0, 0, 0, 0, 0, 0, 0, 0, [], [], 0, 0, 0, 0, []⟩

/-- BlockSize returns the block size (reader.go SuperBlock.BlockSize). -/
def SuperBlock.blockSize (sb : SuperBlock) : Nat := 1 <<< sb.BlockSizeBits

/-- BlockAddrToOffset converts block addr to the offset in the image file. -/
def SuperBlock.blockAddrToOffset (sb : SuperBlock) (addr : Nat) : Nat :=
  addr <<< sb.BlockSizeBits

/-- MetaOffset returns the offset of the metadata area in the image file. -/
def SuperBlock.metaOffset (sb : SuperBlock) : Nat :=
  sb.blockAddrToOffset sb.MetaBlockAddr

/-- NidToOffset converts an inode number to its offset in the image file. -/
def SuperBlock.nidToOffset (sb : SuperBlock) (nid : Nat) : Nat :=
  sb.metaOffset + (nid <<< InodeSlotBits)

/-- Fixed-width field serializer: truncate or zero-pad a byte array field to
exactly n bytes, as binary.Write does for a [n]uint8 field. -/
def padTo (n : Nat) (b : List Nat) : List Nat :=
  (b.take n).map (· % 256) ++ List.replicate (n - b.length) 0

/-- Model of binary.Write(…, binary.LittleEndian, sb): the 128-byte
little-endian serialization of the superblock, field by field in
declaration order. -/
def marshalSuperBlock (sb : SuperBlock) : List Nat :=
  e32 sb.Magic ++ e32 sb.Checksum ++ e32 sb.FeatureCompat ++
  e8 sb.BlockSizeBits ++ e8 sb.ExtSlots ++ e16 sb.RootNid ++
  e64 sb.Inodes ++ e64 sb.BuildTime ++ e32 sb.BuildTimeNsec ++
  e32 sb.Blocks ++ e32 sb.MetaBlockAddr ++ e32 sb.XattrBlockAddr ++
  padTo 16 sb.UUID ++ padTo 16 sb.VolumeName ++
  e32 sb.FeatureIncompat ++ e16 sb.Union1 ++ e16 sb.ExtraDevices ++
  e16 sb.DevTableSlotOff ++ padTo 38 sb.Reserved

/-- Block size constant of the writer (BlockSize in the writer source). -/
def BlockSize : Nat := 4096

/-- Model of SuperBlock.checksum (reader.go lines 274..297): populate the
checksum of the superblock, assuming the remainder of the first block
contains all zeroes. -/
def SuperBlock.withChecksum (sb : SuperBlock) : SuperBlock :=
  let marshalled := marshalSuperBlock { sb with Checksum := 0 }
  let checksum₀ := goCrcChecksum marshalled
  let off := SuperBlockOffset + 128
  let remainingBytes := List.replicate (BlockSize - off) 0
  { sb with Checksum := comp32 (goCrcUpdate checksum₀ remainingBytes) }

/-! Image access (reader.go). -/

/-- Error kinds of the engine; the Go code uses error values built with
fmt.Errorf / errors.New and the fs sentinel errors. Each constructor stands
for one distinct error site or sentinel. -/
inductive RErr
  | shortRead
  | badMagic
  | badChecksum
  | unsupportedFeature
  | badInodeAlign
  | badDirentAlign
  | unsupportedXattr
  | unsupportedLayout
  | unsupportedDataLayout
  | inlineTail
  | corruptDirent
  | badNameOff0
  | notExist
  | invalidArg
  | inlineCrossBlock
deriving DecidableEq, Repr

/-- An open EROFS image: the random-access byte source (io.ReaderAt) and the
parsed superblock. -/
structure Image where
  src : Nat → Nat
  srcSize : Nat
  sb : SuperBlock

/-- Model of Image.bytesAt: the bytes at [off, off+n), failing with an IO
error when the read goes past the end of the source. -/
def Image.bytesAt (i : Image) (off n : Nat) : Except RErr (List Nat) :=
  if off + n ≤ i.srcSize then .ok ((List.range n).map fun k => i.src (off + k) % 256)
  else .error .shortRead

/-- BlockSize of the open image (reader.go Image.BlockSize). -/
def Image.blockSize (i : Image) : Nat := i.sb.blockSize

/-- RootNid of the open image (reader.go Image.RootNid). -/
def Image.rootNid (i : Image) : Nat := i.sb.RootNid

/-- Model of Image.verifyChecksum (reader.go lines 243..270): skip when the
checksum feature bit is clear, otherwise recompute the CRC over the
superblock with zeroed checksum followed by the trailer of the first block
read from the image, and compare with the stored value. -/
def Image.verifyChecksum (i : Image) : Except RErr Unit :=
  if i.sb.FeatureCompat &&& FeatureCompatSuperBlockChecksum = 0 then .ok ()
  else
    let marshalled := marshalSuperBlock { i.sb with Checksum := 0 }
    let checksum₀ := goCrcChecksum marshalled
    let off := SuperBlockOffset + 128
    match i.bytesAt off (i.blockSize - off) with
    | .error _ => .error .shortRead
    | .ok buf =>
      if comp32 (goCrcUpdate checksum₀ buf) ≠ i.sb.Checksum then .error .badChecksum
      else .ok ()

/-- The checksum recomputation performed by the decoder, extracted from the
body of Image.verifyChecksum: `~update(update(0, sb with checksum zeroed), trailer)`. -/
def recomputeChecksum (sb : SuperBlock) (trailer : List Nat) : Nat :=
  comp32 (goCrcUpdate (goCrcChecksum (marshalSuperBlock { sb with Checksum := 0 })) trailer)

/-! Inode codec (reader.go). -/

/-- Bit definitions for Inode Format (reader.go). -/
def InodeLayoutBit : Nat := 0

/-- Width of the layout bit range. -/
def InodeLayoutBits : Nat := 1

/-- First bit of the data-layout bit range. -/
def InodeDataLayoutBit : Nat := 1

/-- Width of the data-layout bit range. -/
def InodeDataLayoutBits : Nat := 3

/-- Inode layout: compact. -/
def InodeLayoutCompact : Nat := 0

/-- Inode layout: extended. -/
def InodeLayoutExtended : Nat := 1

/-- Inode data layout: flat plain. -/
def InodeDataLayoutFlatPlain : Nat := 0

/-- Inode data layout: flat inline. -/
def InodeDataLayoutFlatInline : Nat := 2

/-- Model of bitRange (reader.go): the bits within [bit, bit+bits) of a
uint16 value. -/
def bitRange (value bit bits : Nat) : Nat :=
  ((value % 2 ^ 16) >>> bit) &&& ((1 <<< bits) - 1)

/-- InodeCompact: the 32-byte reduced form of the on-disk inode. -/
structure InodeCompact where
  Format : Nat
  XattrCount : Nat
  Mode : Nat
  Nlink : Nat
  Size : Nat
  Reserved : Nat
  RawBlockAddr : Nat
  Ino : Nat
  UID : Nat
  GID : Nat
  Reserved2 : Nat
deriving DecidableEq, Repr

/-- InodeExtended: the 64-byte complete form of the on-disk inode. -/
structure InodeExtended where
  Format : Nat
  XattrCount : Nat
  Mode : Nat
  Reserved : Nat
  Size : Nat
  RawBlockAddr : Nat
  Ino : Nat
  UID : Nat
  GID : Nat
  Mtime : Nat
  MtimeNsec : Nat
  Nlink : Nat
  Reserved2 : List Nat
deriving DecidableEq, Repr

/-- Byte slice helper: n bytes of b starting at offset a. -/
def slice (b : List Nat) (a n : Nat) : List Nat := (b.drop a).take n

/-- Decode a 32-byte compact inode record (little-endian field layout). -/
def parseInodeCompact (b : List Nat) : InodeCompact :=
  ⟨le16 (slice b 0 2), le16 (slice b 2 2), le16 (slice b 4 2), le16 (slice b 6 2),
   le32 (slice b 8 4), le32 (slice b 12 4), le32 (slice b 16 4), le32 (slice b 20 4),
   le16 (slice b 24 2), le16 (slice b 26 2), le32 (slice b 28 4)⟩

/-- Decode a 64-byte extended inode record (little-endian field layout). -/
def parseInodeExtended (b : List Nat) : InodeExtended :=
  ⟨le16 (slice b 0 2), le16 (slice b 2 2), le16 (slice b 4 2), le16 (slice b 6 2),
   le64 (slice b 8 8), le32 (slice b 16 4), le32 (slice b 20 4), le32 (slice b 24 4),
   le32 (slice b 28 4), le64 (slice b 32 8), le32 (slice b 40 4), le32 (slice b 44 4),
   slice b 48 16⟩

/-- Serialize a compact inode record (binary.Write little-endian; 32 bytes). -/
def marshalInodeCompact (c : InodeCompact) : List Nat :=
  e16 c.Format ++ e16 c.XattrCount ++ e16 c.Mode ++ e16 c.Nlink ++
  e32 c.Size ++ e32 c.Reserved ++ e32 c.RawBlockAddr ++ e32 c.Ino ++
  e16 c.UID ++ e16 c.GID ++ e32 c.Reserved2

/-- Serialize an extended inode record (binary.Write little-endian; 64 bytes). -/
def marshalInodeExtended (x : InodeExtended) : List Nat :=
  e16 x.Format ++ e16 x.XattrCount ++ e16 x.Mode ++ e16 x.Reserved ++
  e64 x.Size ++ e32 x.RawBlockAddr ++ e32 x.Ino ++ e32 x.UID ++ e32 x.GID ++
  e64 x.Mtime ++ e32 x.MtimeNsec ++ e32 x.Nlink ++ padTo 16 x.Reserved2

/-- Model of checkInodeAlignment (reader.go): each valid inode is aligned to
a 32-byte inode slot. -/
def checkInodeAlignment (off : Nat) : Bool := off &&& ((1 <<< InodeSlotBits) - 1) == 0

/-- Model of Image.inodeFormatAt: the 2-byte format field of the inode at
offset off. -/
def Image.inodeFormatAt (i : Image) (off : Nat) : Except RErr Nat :=
  if ¬checkInodeAlignment off then .error .badInodeAlign
  else do
    let buf ← i.bytesAt off 2
    .ok (le16 buf)

/-- Model of Image.inodeCompactAt. -/
def Image.inodeCompactAt (i : Image) (off : Nat) : Except RErr InodeCompact :=
  if ¬checkInodeAlignment off then .error .badInodeAlign
  else do
    let buf ← i.bytesAt off 32
    .ok (parseInodeCompact buf)

/-- Model of Image.inodeExtendedAt. -/
def Image.inodeExtendedAt (i : Image) (off : Nat) : Except RErr InodeExtended :=
  if ¬checkInodeAlignment off then .error .badInodeAlign
  else do
    let buf ← i.bytesAt off 64
    .ok (parseInodeExtended buf)

/-- The in-memory Inode view (reader.go struct Inode). The Go struct holds a
pointer to its Image; the model passes the image to each method explicitly. -/
structure Inode where
  dataOff : Nat
  idataOff : Nat
  blocks : Nat
  format : Nat
  mode : Nat
  nid : Nat
  size : Nat
  mtime : Nat
  mtimeNsec : Nat
  uid : Nat
  gid : Nat
  nlink : Nat
deriving DecidableEq, Repr

/-- Layout returns the inode layout (reader.go Inode.Layout). -/
def Inode.Layout (ino : Inode) : Nat := bitRange ino.format InodeLayoutBit InodeLayoutBits

/-- DataLayout returns the inode data layout (reader.go Inode.DataLayout). -/
def Inode.DataLayout (ino : Inode) : Nat :=
  bitRange ino.format InodeDataLayoutBit InodeDataLayoutBits

/-- Values for mode_t: file-type mask (S_IFMT). -/
def S_IFMT : Nat := 0o170000

/-- S_IFDIR file-type bits. -/
def S_IFDIR : Nat := 0o40000

/-- S_IFREG file-type bits. -/
def S_IFREG : Nat := 0o100000

/-- S_IFLNK file-type bits. -/
def S_IFLNK : Nat := 0o120000

/-- IsDir (reader.go Inode.IsDir). -/
def Inode.IsDir (ino : Inode) : Bool := ino.mode &&& S_IFMT == S_IFDIR

/-- IsSymlink (reader.go Inode.IsSymlink). -/
def Inode.IsSymlink (ino : Inode) : Bool := ino.mode &&& S_IFMT == S_IFLNK

/-- IsRegular (reader.go Inode.IsRegular). -/
def Inode.IsRegular (ino : Inode) : Bool := ino.mode &&& S_IFMT == S_IFREG

/-- The shared tail of Image.Inode (reader.go lines 421..443): compute the
block count, then switch on the data layout — FlatInline checks that the
tail fits in the metadata block next to the record and sets idataOff, and
both FlatInline and FlatPlain set dataOff from the raw block address. -/
def Image.finishInode (i : Image) (off inodeSize rawBlockAddr : Nat) (base : Inode) :
    Except RErr Inode :=
  let blockSize := i.blockSize
  let ino : Inode := { base with blocks := (base.size + (blockSize - 1)) / blockSize }
  if ino.DataLayout = InodeDataLayoutFlatInline then
    let tailSize := ino.size &&& (blockSize - 1)
    if tailSize = 0 ∨ tailSize > blockSize - inodeSize then .error .inlineTail
    else .ok { ino with idataOff := off + inodeSize,
                        dataOff := i.sb.blockAddrToOffset rawBlockAddr }
  else if ino.DataLayout = InodeDataLayoutFlatPlain then
    .ok { ino with dataOff := i.sb.blockAddrToOffset rawBlockAddr }
  else .error .unsupportedDataLayout

/-- Model of the Go method Image.Inode (reader.go lines 356..444): read the
format word, decode the compact or extended record, reject nonzero xattr
counts, and populate the uniform Inode view. A compact record takes its
mtime from the superblock build time. -/
def Image.inode (i : Image) (nid : Nat) : Except RErr Inode := do
  let off := i.sb.nidToOffset nid
  let format ← i.inodeFormatAt off
  match bitRange format InodeLayoutBit InodeLayoutBits with
  | 0 => do
    let ino ← i.inodeCompactAt off
    if ino.XattrCount ≠ 0 then .error .unsupportedXattr
    else
      i.finishInode off 32 ino.RawBlockAddr
        { dataOff := 0, idataOff := 0, blocks := 0, format := format,
          mode := ino.Mode, nid := nid, size := ino.Size,
          mtime := i.sb.BuildTime, mtimeNsec := i.sb.BuildTimeNsec,
          uid := ino.UID, gid := ino.GID, nlink := ino.Nlink }
  | 1 => do
    let ino ← i.inodeExtendedAt off
    if ino.XattrCount ≠ 0 then .error .unsupportedXattr
    else
      i.finishInode off 64 ino.RawBlockAddr
        { dataOff := 0, idataOff := 0, blocks := 0, format := format,
          mode := ino.Mode, nid := nid, size := ino.Size,
          mtime := ino.Mtime, mtimeNsec := ino.MtimeNsec,
          uid := ino.UID, gid := ino.GID, nlink := ino.Nlink }
  | _ => .error .unsupportedLayout

/-! Directory reader (reader.go). -/

/-- On-disk directory entry (reader.go struct Dirent; binary.Size = 12). -/
structure Dirent where
  Nid : Nat
  NameOff : Nat
  FileType : Nat
  Reserved : Nat
deriving DecidableEq, Repr

/-- DirentSize = binary.Size(Dirent{}) = 12. -/
def DirentSize : Nat := 12

/-- Serialize a dirent record (binary.Write little-endian; 12 bytes). -/
def marshalDirent (d : Dirent) : List Nat :=
  e64 d.Nid ++ e16 d.NameOff ++ e8 d.FileType ++ e8 d.Reserved

/-- Model of Image.direntAt: each valid dirent is 4-byte aligned; decode the
12-byte record at off. -/
def Image.direntAt (i : Image) (off : Nat) : Except RErr Dirent :=
  if off &&& 3 ≠ 0 then .error .badDirentAlign
  else do
    let b ← i.bytesAt off 12
    .ok ⟨le64 (slice b 0 8), le16 (slice b 8 2), b.getD 10 0, b.getD 11 0⟩

/-- Information about the data in one block of an inode (reader.go blockData). -/
structure BlockData where
  base : Nat
  size : Nat
deriving DecidableEq, Repr

/-- Model of Inode.getBlockDataInfo (reader.go lines 646..660). The last
block reads from the inline-tail offset when one is set; the last block's
size is the tail size when the size is not block-aligned. The `uint32`
truncation of the size before masking is kept as in the source. -/
def Inode.getBlockDataInfo (i : Image) (ino : Inode) (blockIdx : Nat) : BlockData :=
  let blockSize := i.blockSize
  let lastBlock := (blockIdx : Int) = (ino.blocks : Int) - 1
  let base := if ¬lastBlock ∨ ino.idataOff = 0
    then ino.dataOff + blockIdx * blockSize
    else ino.idataOff
  let tailSize := (ino.size % 2 ^ 32) &&& (blockSize - 1)
  let size := if lastBlock ∧ tailSize ≠ 0 then tailSize else blockSize
  ⟨base, size⟩

/-- A name is a byte string (Go converts between string and []byte freely). -/
abbrev Name := List Nat

/-- Model of Inode.getDirentName (reader.go lines 689..719): compute the name
length from the next dirent's NameOff (or from the block size for the last
dirent), validate it, read the bytes, and for the last dirent strip optional
NUL padding. Subtractions wrap as the corresponding Go unsigned types do. -/
def Inode.getDirentName (i : Image) (d : Dirent) (direntOff : Nat) (block : BlockData)
    (lastDirent : Bool) : Except RErr Name := do
  let nameLen ←
    if lastDirent then
      pure ((block.size + 2 ^ 32 - d.NameOff) % 2 ^ 32)
    else do
      let next ← i.direntAt (direntOff + DirentSize)
      pure ((next.NameOff + 2 ^ 16 - d.NameOff) % 2 ^ 16)
  if (d.NameOff + nameLen) % 2 ^ 32 > block.size ∨ nameLen > MaxNameLen ∨ nameLen = 0 then
    .error .corruptDirent
  else do
    let name ← i.bytesAt (block.base + d.NameOff) nameLen
    if lastDirent then
      match name.findIdx? (· = 0) with
      | some 0 => .error .corruptDirent
      | some n => .ok (name.take n)
      | none => .ok name
    else
      .ok name

/-- Model of Inode.getDirent0 (reader.go lines 722..731): the first dirent of
a block, whose NameOff must lie in [DirentSize, block.size). -/
def Inode.getDirent0 (i : Image) (block : BlockData) : Except RErr Dirent := do
  let d0 ← i.direntAt block.base
  if d0.NameOff < DirentSize ∨ d0.NameOff ≥ block.size then .error .badNameOff0
  else .ok d0

/-- One emitted directory entry: name, file type, nid — the arguments of the
IterDirents callback. -/
abbrev DEntry := Name × Nat × Nat

/-- The inner loop of Inode.IterDirents over one block (reader.go lines
836..853), collecting the entries it emits. `remaining` is the decrementing
dirent counter; the loop body runs while it is positive (it is always called
with the positive value NameOff/12 derived by getDirent0). -/
def Inode.iterBlockGo (i : Image) (block : BlockData) :
    Nat → Dirent → Nat → Except RErr (List DEntry)
  | 0, _, _ => .ok []
  | remaining + 1, d, direntOff => do
    let name ← Inode.getDirentName i d direntOff block (remaining + 1 == 1)
    let e : DEntry := (name, d.FileType, d.Nid)
    if remaining = 0 then .ok [e]
    else do
      let d₂ ← i.direntAt (direntOff + DirentSize)
      let rest ← Inode.iterBlockGo i block remaining d₂ (direntOff + DirentSize)
      .ok (e :: rest)

/-- Default entry used with List.getD when indexing emitted entries. -/
def dfltEntry : DEntry := ([], 0, 0)

/-- The per-block body of Inode.IterDirents: block info, first dirent, count
derivation, then the inner loop. -/
def Inode.blockEntries (i : Image) (ino : Inode) (blockIdx : Nat) :
    Except RErr (List DEntry) := do
  let block := ino.getBlockDataInfo i blockIdx
  let d ← Inode.getDirent0 i block
  let numDirents := d.NameOff / DirentSize
  Inode.iterBlockGo i block numDirents d block.base

/-- The outer loop of Inode.IterDirents over the `count` blocks starting at
`blockIdx` (reader.go lines 827..854). -/
def Inode.iterBlocksGo (i : Image) (ino : Inode) : Nat → Nat → Except RErr (List DEntry)
  | 0, _ => .ok []
  | count + 1, blockIdx => do
    let l ← Inode.blockEntries i ino blockIdx
    let rest ← Inode.iterBlocksGo i ino count (blockIdx + 1)
    .ok (l ++ rest)

/-- Model of Inode.IterDirents (reader.go lines 821..856) with a callback
that always continues: the list of (name, file type, nid) entries emitted,
in emission order, or the first error encountered. -/
def Inode.iterDirentsList (i : Image) (ino : Inode) : Except RErr (List DEntry) :=
  if ¬ino.IsDir then .error .invalidArg
  else Inode.iterBlocksGo i ino ino.blocks 0

/-- The outer block-level binary search of Inode.Lookup (reader.go lines
752..779). `l` only ever takes the values 0 and mid+1, so it is a Nat as in
the gVisor-derived comment; `r` can reach -1 and is an Int. Returns either
the early-found first dirent of a probed block (Sum.inl) or the final
candidate block and its dirent count (Sum.inr). -/
def Inode.lookupOuterGo (i : Image) (ino : Inode) (nameBytes : Name) :
    Nat → Int → BlockData → Nat → Except RErr (Dirent ⊕ BlockData × Nat)
  | l, r, targetBlock, targetNumDirents =>
    if h : (l : Int) > r then .ok (.inr (targetBlock, targetNumDirents))
    else
      let mid := ((l : Int) + r).toNat >>> 1
      let block := ino.getBlockDataInfo i mid
      match Inode.getDirent0 i block with
      | .error e => .error e
      | .ok d0 =>
        let numDirents := d0.NameOff / DirentSize
        match Inode.getDirentName i d0 block.base block (numDirents == 1) with
        | .error e => .error e
        | .ok d0Name =>
          match compareBytes nameBytes d0Name with
          | 0 => .ok (.inl d0)
          | 1 => Inode.lookupOuterGo i ino nameBytes (mid + 1) r block numDirents
          | _ => Inode.lookupOuterGo i ino nameBytes l ((mid : Int) - 1) targetBlock
              targetNumDirents
termination_by l r _ _ => (r + 1 - (l : Int)).toNat
decreasing_by
  all_goals simp_all
  all_goals omega

/-- The inner entry-level binary search of Inode.Lookup (reader.go lines
789..814) within the target block. dLeft starts at 1 and only increases, so
the invariant 1 ≤ dLeft is carried as a proof argument (the Go comment notes
the 0th dirent has already been checked). -/
def Inode.lookupInnerGo (i : Image) (ino : Inode) (nameBytes : Name)
    (targetBlock : BlockData) (targetNumDirents : Nat) :
    (dLeft : Nat) → Nat → 1 ≤ dLeft → Except RErr Dirent
  | dLeft, dRight, hdl =>
    if h : dLeft > dRight then .error .notExist
    else
      let mid := (dLeft + dRight) >>> 1
      let direntOff := targetBlock.base + mid * DirentSize
      match i.direntAt direntOff with
      | .error e => .error e
      | .ok d =>
        match Inode.getDirentName i d direntOff targetBlock (mid == targetNumDirents - 1) with
        | .error e => .error e
        | .ok dName =>
          match compareBytes nameBytes dName with
          | 0 => .ok d
          | 1 => Inode.lookupInnerGo i ino nameBytes targetBlock targetNumDirents
              (mid + 1) dRight (by omega)
          | _ => Inode.lookupInnerGo i ino nameBytes targetBlock targetNumDirents
              dLeft (mid - 1) hdl
termination_by dLeft dRight _ => dRight + 1 - dLeft
decreasing_by
  all_goals simp_all
  all_goals omega

/-- Model of Inode.Lookup (reader.go lines 734..817): two-level binary search
for a child by name; a zero candidate base after the outer search means the
block was not found. -/
def Inode.Lookup (i : Image) (ino : Inode) (nameBytes : Name) : Except RErr Dirent :=
  if ¬ino.IsDir then .error .invalidArg
  else
    match Inode.lookupOuterGo i ino nameBytes 0 ((ino.blocks : Int) - 1) ⟨0, 0⟩ 0 with
    | .error e => .error e
    | .ok (.inl d) => .ok d
    | .ok (.inr (targetBlock, targetNumDirents)) =>
      if targetBlock.base = 0 then .error .notExist
      else Inode.lookupInnerGo i ino nameBytes targetBlock targetNumDirents
        1 (targetNumDirents - 1) (by omega)

/-- Model of Inode.Readlink (reader.go lines 859..883). -/
def Inode.Readlink (i : Image) (ino : Inode) : Except RErr Name :=
  if ¬ino.IsSymlink then .error .invalidArg
  else if ino.idataOff ≠ 0 then
    if ino.blocks > 1 then .error .inlineCrossBlock
    else i.bytesAt ino.idataOff ino.size
  else
    let size := if ino.size > i.blockSize - 1 then i.blockSize - 1 else ino.size
    i.bytesAt ino.dataOff size

/-! Path handling (erofs.go splitPath; Go standard library path/filepath
helpers used by Filesystem.resolve). Paths are byte strings; 47 is the
slash and 46 the dot. -/

/-- Linux on-disk file type: regular file. -/
def FT_REG_FILE : Nat := 1

/-- Linux on-disk file type: directory. -/
def FT_DIR : Nat := 2

/-- Linux on-disk file type: symbolic link. -/
def FT_SYMLINK : Nat := 7

/-- Model of splitPath (erofs.go lines 338..346): split on slashes and keep
the nonempty components. -/
def splitPath (path : Name) : List Name :=
  (path.splitOn 47).filter (· ≠ [])

/-- Join a list of byte strings with slashes (strings.Join(…, "/")). -/
def joinSlash (parts : List Name) : Name := List.intercalate [47] parts

/-- Model of the Go standard library filepath.Clean on slash-separated paths
(Go standard library, not part of this repository), by its documented
algorithm: collapse multiple slashes, drop `.` components, resolve `..`
against preceding components (dropping leading `..` when rooted), and return
`.` for an empty result. -/
def pathClean (p : Name) : Name :=
  if p = [] then [46]
  else
    let rooted := p.head? = some 47
    let comps := (p.splitOn 47).filter (fun c => c ≠ [] ∧ c ≠ [46])
    let out := comps.foldl
      (fun stack c =>
        if c = [46, 46] then
          if stack ≠ [] ∧ stack.getLast? ≠ some [46, 46] then stack.dropLast
          else if rooted then stack
          else stack ++ [c]
        else stack ++ [c])
      []
    let body := joinSlash out
    if rooted then 47 :: body
    else if body = [] then [46]
    else body

/-- Model of the Go standard library filepath.Join on two elements: join the
nonempty elements with a slash and Clean the result; all-empty input yields
the empty path. -/
def pathJoin (a b : Name) : Name :=
  if a = [] ∧ b = [] then []
  else if a = [] then pathClean b
  else if b = [] then pathClean a
  else pathClean (a ++ [47] ++ b)

/-! The Filesystem layer (erofs.go). -/

/-- A failure of a filesystem operation: either an error value returned to
the caller, or a Go panic (the `panic(err)` inside dirEntry.getInode). -/
inductive Failure
  | err (e : RErr)
  | panicked (e : RErr)
deriving DecidableEq, Repr

/-- Model of dirEntry (erofs.go): the name, file type and nid of a directory
entry. The lazily memoised inode is reconstructed on demand (the memoisation
is behaviourally transparent, see the spec's design notes). -/
structure DirEntryM where
  name : Name
  typ : Nat
  nid : Nat
deriving DecidableEq, Repr

/-- An opened Filesystem (erofs.go struct Filesystem). -/
structure Filesystem where
  image : Image

/-- The root dirEntry constructed by Open (erofs.go lines 56..63). -/
def Filesystem.root (fs : Filesystem) : DirEntryM :=
  ⟨[], FT_DIR, fs.image.rootNid⟩

/-- Model of dirEntry.getInode (erofs.go lines 296..306): reads the inode,
but PANICS instead of returning the error when the read fails. -/
def DirEntryM.getInode (de : DirEntryM) (i : Image) : Except Failure Inode :=
  match i.inode de.nid with
  | .ok ino => .ok ino
  | .error e => .error (.panicked e)

/-- Model of dirEntry.lookup (erofs.go lines 277..294). -/
def DirEntryM.lookup (de : DirEntryM) (i : Image) (name : Name) : Except Failure DirEntryM := do
  let ino ← de.getInode i
  match Inode.Lookup i ino name with
  | .ok d => .ok ⟨name, d.FileType, d.Nid⟩
  | .error e => .error (.err e)

/-- IsDir of a dirEntry (erofs.go dirEntry.IsDir). -/
def DirEntryM.IsDir (de : DirEntryM) : Bool := de.typ == FT_DIR

mutual

/-- The component-walking loop of Filesystem.resolve (erofs.go lines
172..204). `idx` is the loop index; after a non-final (or followed final)
symlink component the link target is cleaned, resolved against the root or
the already-walked prefix, and recursively resolved. The Go source recurses
without any hop bound; `fuel` only counts those recursive resolve calls so
that the model is total — `none` means the Go code would still be
recursing. -/
def Filesystem.resolveLoop (fs : Filesystem) (noLast : Bool) (components : List Name)
    (fuel : Nat) (idx : Nat) (de : DirEntryM) : Option (Except Failure DirEntryM) :=
  if h : idx < components.length then
    let comp := components.get ⟨idx, h⟩
    match de.lookup fs.image comp with
    | .error e => some (.error e)
    | .ok child =>
      match child.getInode fs.image with
      | .error e => some (.error e)
      | .ok ino =>
        if ino.IsSymlink ∧ ¬(noLast ∧ idx = components.length - 1) then
          match Inode.Readlink fs.image ino with
          | .error e => some (.error (.err e))
          | .ok link₀ =>
            let link₁ := pathClean link₀
            let link₂ := if link₁.head? = some 47 then link₁.drop 1
              else pathJoin (joinSlash (components.take idx)) link₁
            match fs.resolveFuel fuel link₂ noLast with
            | none => none
            | some (.error e) => some (.error e)
            | some (.ok child₂) => fs.resolveLoop noLast components fuel (idx + 1) child₂
        else fs.resolveLoop noLast components fuel (idx + 1) child
  else some (.ok de)
termination_by (fuel, components.length + 1 - idx)
decreasing_by
  all_goals simp_wf
  all_goals omega

/-- Model of Filesystem.resolve (erofs.go lines 169..206), indexed by the
recursion fuel: each self-recursive resolve call of the Go source consumes
one unit; `none` models a computation that has not returned within the
given recursion depth. -/
def Filesystem.resolveFuel (fs : Filesystem) (fuel : Nat) (name : Name) (noLast : Bool) :
    Option (Except Failure DirEntryM) :=
  match fuel with
  | 0 => none
  | f + 1 => fs.resolveLoop noLast (splitPath name) f 0 fs.root
termination_by (fuel, 0)
decreasing_by
  all_goals simp_wf
  all_goals omega

end

/-- Model of Filesystem.Stat (erofs.go lines 116..132): resolve, then read
the inode (which panics on failure), returning the entry name and inode. -/
def Filesystem.Stat (fs : Filesystem) (fuel : Nat) (name : Name) :
    Option (Except Failure (Name × Inode)) :=
  match fs.resolveFuel fuel name false with
  | none => none
  | some (.error e) => some (.error e)
  | some (.ok de) =>
    match de.getInode fs.image with
    | .error e => some (.error e)
    | .ok ino => some (.ok (de.name, ino))

/-! The image writer (package erofs, Create / writer). The source
filesystem (io/fs.FS) is modelled as a tree whose directory entries appear
in ReadDir order; file data is represented by its size (the writer's layout
never depends on the data bytes themselves). -/

/-- Writer constants (writer source). BlockSizeBits of the writer. -/
def BlockSizeBits : Nat := 12

/-- InodeSlotSize = 1 << InodeSlotBits. -/
def InodeSlotSize : Nat := 1 <<< InodeSlotBits

/-- MaxInlineDataSize = BlockSize / 4. -/
def MaxInlineDataSize : Nat := BlockSize / 4

/-- Writer-side errors (the writer wraps everything in fmt.Errorf; each
constructor stands for one error site). -/
inductive WErr
  | unsupportedType
  | misaligned
deriving DecidableEq, Repr

/-- Metadata of a source node, as observed through fs.FileInfo: permission
and mode bits, owner, and modification time. `mtimeIsZero` models
`fi.ModTime() == time.Time{}`; `statSize` models `fi.Size()`. -/
structure Meta where
  perm : Nat
  setuid : Bool
  setgid : Bool
  sticky : Bool
  uid : Nat
  gid : Nat
  mtimeIsZero : Bool
  mtime : Nat
  mtimeNsec : Nat
  statSize : Nat
deriving DecidableEq, Repr

/-- A source filesystem tree. Directory entries are listed in ReadDir order
(io/fs guarantees alphabetical order by file name). -/
inductive FNode where
  | file (meta : Meta) (size : Nat)
  | dir (meta : Meta) (entries : List (Name × FNode))
  | symlink (meta : Meta) (target : Name)

/-- Metadata of a node. -/
def FNode.meta : FNode → Meta
  | .file m _ => m
  | .dir m _ => m
  | .symlink m _ => m

/-- Whether the node is a directory (fi.IsDir()). -/
def FNode.isDir : FNode → Bool
  | .dir _ _ => true
  | _ => false

/-- Model of statModeFromFileMode (writer helper source) applied to the
node's FileMode: permission bits, the Unix file-type bits chosen by the
node's type, and the setuid/setgid/sticky bits. -/
def statModeFromNode (n : FNode) : Nat :=
  let stMode := n.meta.perm &&& 0o777
  let stMode := stMode |||
    (match n with
      | .dir _ _ => S_IFDIR
      | .symlink _ _ => S_IFLNK
      | .file _ _ => S_IFREG)
  let stMode := if n.meta.setuid then stMode ||| 0o4000 else stMode
  let stMode := if n.meta.setgid then stMode ||| 0o2000 else stMode
  if n.meta.sticky then stMode ||| 0o1000 else stMode

/-- Model of fileTypeFromFileMode (writer helper source) applied to the
node's type. -/
def fileTypeFromNode : FNode → Nat
  | .dir _ _ => FT_DIR
  | .symlink _ _ => FT_SYMLINK
  | .file _ _ => FT_REG_FILE

/-- A planned inode record: the two-variant sum the writer stores in its
path map (w.inodes holds InodeCompact or InodeExtended values). -/
inductive InodeRec where
  | compact (c : InodeCompact)
  | extended (x : InodeExtended)
deriving DecidableEq, Repr

/-- binary.Size of the record: 32 or 64 bytes. -/
def InodeRec.recSize : InodeRec → Nat
  | .compact _ => 32
  | .extended _ => 64

/-- The Ino field of the record. -/
def InodeRec.ino : InodeRec → Nat
  | .compact c => c.Ino
  | .extended x => x.Ino

/-- The Format field of the record. -/
def InodeRec.format : InodeRec → Nat
  | .compact c => c.Format
  | .extended x => x.Format

/-- The RawBlockAddr field of the record. -/
def InodeRec.rawBlockAddr : InodeRec → Nat
  | .compact c => c.RawBlockAddr
  | .extended x => x.RawBlockAddr

/-- The Size field of the record. -/
def InodeRec.size : InodeRec → Nat
  | .compact c => c.Size
  | .extended x => x.Size

/-- The Mode field of the record. -/
def InodeRec.mode : InodeRec → Nat
  | .compact c => c.Mode
  | .extended x => x.Mode

/-- Model of setBits (writer source): replace the bit range
[bit, bit+bits) of a uint16 value, with uint16 wrapping as in Go. -/
def setBits (value newValue bit bits : Nat) : Nat :=
  let mask := ((((1 <<< bits) - 1) % 2 ^ 16) <<< bit) % 2 ^ 16
  ((value % 2 ^ 16) &&& ((2 ^ 16 - 1) ^^^ mask)) ||| (((newValue <<< bit) % 2 ^ 16) &&& mask)

/-- Model of roundUp (writer source). For the power-of-two alignments used
by the writer (32 and 4096) the Go bit-clearing form equals rounding up to
the next multiple. -/
def roundUp (x align : Nat) : Nat :=
  if x % align = 0 then x else ((x + align - 1) / align) * align

/-- Model of isInlined (writer source): the data-layout bit range of the
record's format equals FlatInline. -/
def isInlined (r : InodeRec) : Bool :=
  bitRange r.format InodeDataLayoutBit InodeDataLayoutBits == InodeDataLayoutFlatInline

/-- Model of offsetToNID (writer source): the metadata offset must be
slot-aligned; the nid is the offset in inode slots (as a uint32). -/
def offsetToNID (metaOffset : Nat) : Except WErr Nat :=
  if metaOffset % InodeSlotSize ≠ 0 then .error .misaligned
  else .ok ((metaOffset >>> InodeSlotBits) % 2 ^ 32)

/-- Model of toInode (writer source): pick the compact record when the size,
owner ids and zero mtime allow it, otherwise the extended record. Only the
format, mode, nlink and owner fields are populated here. -/
def toInode (n : FNode) (nlink : Nat) : InodeRec :=
  let m := n.meta
  if m.statSize ≤ 2 ^ 32 - 1 ∧ m.uid ≤ 2 ^ 16 - 1 ∧ m.gid ≤ 2 ^ 16 - 1 ∧ m.mtimeIsZero then
    .compact
      { Format := setBits 0 InodeLayoutCompact InodeLayoutBit InodeLayoutBits,
        XattrCount := 0, Mode := statModeFromNode n, Nlink := nlink % 2 ^ 16,
        Size := 0, Reserved := 0, RawBlockAddr := 0, Ino := 0,
        UID := m.uid % 2 ^ 16, GID := m.gid % 2 ^ 16, Reserved2 := 0 }
  else
    .extended
      { Format := setBits 0 InodeLayoutExtended InodeLayoutBit InodeLayoutBits,
        XattrCount := 0, Mode := statModeFromNode n, Reserved := 0,
        Size := 0, RawBlockAddr := 0, Ino := 0,
        UID := m.uid % 2 ^ 32, GID := m.gid % 2 ^ 32,
        Mtime := m.mtime % 2 ^ 64, MtimeNsec := m.mtimeNsec % 2 ^ 32,
        Nlink := nlink % 2 ^ 32, Reserved2 := [] }

/-- A path is the list of name components from the root; the root itself is
the empty list (the walk starts at "."). -/
abbrev WPath := List Name

mutual

/-- Model of the fs.WalkDir traversal used by populateInodes: the node
itself, then its entries recursively, in ReadDir order. -/
def FNode.walk : FNode → WPath → List (WPath × FNode)
  | n, p =>
    (p, n) :: (match n with
      | .dir _ entries => walkEntries entries p
      | _ => [])

/-- Walk of a directory's entry list. -/
def walkEntries : List (Name × FNode) → WPath → List (WPath × FNode)
  | [], _ => []
  | (nm, c) :: rest, p => c.walk (p ++ [nm]) ++ walkEntries rest p

end

/-- Find the planned record for a path (a read of the Go map w.inodes). -/
def lookupPath (plan : List (WPath × InodeRec)) (p : WPath) : Option InodeRec :=
  (plan.find? (fun e => e.1 = p)).map (fun e => e.2)

/-- Replace the planned record for a path (a write of w.inodes for an
existing key). -/
def updatePath (plan : List (WPath × InodeRec)) (p : WPath) (r : InodeRec) :
    List (WPath × InodeRec) :=
  plan.map (fun e => if e.1 = p then (p, r) else e)

/-- Insert or replace, mirroring the Go map assignment in populateInodes. -/
def insertPath (plan : List (WPath × InodeRec)) (p : WPath) (r : InodeRec) :
    List (WPath × InodeRec) :=
  if (plan.find? (fun e => e.1 = p)).isSome then updatePath plan p r
  else plan ++ [(p, r)]

/-- Model of populateInodes (writer source): walk the source and record a
fresh record for every path, with nlink = entries+2 for directories and 1
otherwise. Returns the path map; the walk order itself is w.inodeOrder. -/
def populateInodes (src : FNode) : List (WPath × InodeRec) :=
  (src.walk []).foldl
    (fun plan pn =>
      let nlink := match pn.2 with
        | .dir _ entries => entries.length + 2
        | _ => 1
      insertPath plan pn.1 (toInode pn.2 nlink))
    []

/-- One block of an encoded directory payload (writer source direntBlock). -/
structure DirentBlock where
  entries : List Dirent
  names : List Name
deriving DecidableEq, Repr

/-- Model of splitIntoDirentBlocks (writer source): greedily pack dirents
into blocks, starting a new block when the record plus name plus one NUL
would cross the block size. -/
def splitIntoDirentBlocks (dirents : List Dirent) (names : List Name) : List DirentBlock :=
  let step := fun (st : List DirentBlock × DirentBlock × Nat) (dn : Dirent × Name) =>
    let (blocks, currentBlock, currentBlockSize) := st
    let nameSize := dn.2.length
    if currentBlockSize + DirentSize + nameSize + 1 > BlockSize then
      (blocks ++ [currentBlock], ⟨[dn.1], [dn.2]⟩, DirentSize + nameSize)
    else
      (blocks, ⟨currentBlock.entries ++ [dn.1], currentBlock.names ++ [dn.2]⟩,
        currentBlockSize + DirentSize + nameSize)
  let st := (dirents.zip names).foldl step ([], ⟨[], []⟩, 0)
  if st.2.1.entries.length > 0 then st.1 ++ [st.2.1] else st.1

/-- The dirent-writing loop of encodeDirents for one block: each dirent is
written with the running name offset (a uint16), which starts at
entries×12 and advances by each name's length. -/
def encodeBlockDirents : List Dirent → List Name → Nat → List Nat
  | d :: ds, n :: ns, nameOff =>
    marshalDirent { d with NameOff := nameOff % 2 ^ 16 } ++
      encodeBlockDirents ds ns (nameOff + n.length)
  | _, _, _ => []

/-- One block of encodeDirents output: the dirent records, the concatenated
names, a single NUL, and — for non-final blocks — zero padding to the block
boundary (the buffer is block-aligned at each non-final block start, so the
padding is relative to the block's own length). -/
def encodeOneBlock (b : DirentBlock) (isLast : Bool) : List Nat :=
  let body := encodeBlockDirents b.entries b.names (b.entries.length * DirentSize) ++
    b.names.flatten ++ [0]
  if isLast then body
  else body ++ List.replicate (roundUp body.length BlockSize - body.length) 0

/-- Model of encodeDirents (writer source). Buffer writes cannot fail, so
the model returns the bytes directly. -/
def encodeDirents (dirents : List Dirent) (names : List Name) : List Nat :=
  let blocks := splitIntoDirentBlocks dirents names
  (List.range blocks.length).flatMap
    (fun k => encodeOneBlock (blocks.getD k ⟨[], []⟩) (k = blocks.length - 1))

/-- The directory branch of dataForInode (writer source lines 333..377):
a synthetic "." entry, a synthetic ".." entry for non-root directories, then
one entry per child with the child's planned nid and file type — all with
nid and NameOff zero-valued for the synthetic entries, exactly as the Go
composite literals leave them. -/
def direntsForDir (plan : List (WPath × InodeRec)) (p : WPath)
    (entries : List (Name × FNode)) : Except WErr (List Dirent × List Name) := do
  let base : List Dirent × List Name := ([⟨0, 0, FT_DIR, 0⟩], [[46]])
  let withDotDot : List Dirent × List Name :=
    if p ≠ [] then (base.1 ++ [⟨0, 0, FT_DIR, 0⟩], base.2 ++ [[46, 46]])
    else base
  let rest ← entries.foldlM
    (fun (acc : List Dirent × List Name) en => do
      match lookupPath plan (p ++ [en.1]) with
      | none => .error WErr.unsupportedType
      | some childRec =>
        .ok (acc.1 ++ [⟨childRec.ino % 2 ^ 64, 0, fileTypeFromNode en.2, 0⟩],
          acc.2 ++ [en.1]))
    withDotDot
  .ok rest

/-- The size returned by dataForInode (writer source): the file size for
regular files, the encoded payload length for directories, and the target
length for symlinks. The switch is on the record's mode file-type bits,
which the writer set from the node's type. -/
def dataSizeForInode (plan : List (WPath × InodeRec)) (p : WPath) (n : FNode) :
    Except WErr Nat :=
  match n with
  | .file _ size => .ok size
  | .dir _ entries => do
    let dn ← direntsForDir plan p entries
    .ok (encodeDirents dn.1 dn.2).length
  | .symlink _ target => .ok target.length

/-- The mutable state of writer.firstPass: the path map and the running
metadata and data sizes. -/
structure PlanState where
  plan : List (WPath × InodeRec)
  metaSize : Nat
  dataSize : Nat
deriving DecidableEq, Repr

/-- Update the compact record fields assigned in the firstPass loop body. -/
def planCompact (c : InodeCompact) (nid size : Nat) (inlined : Bool) (dataSize : Nat) :
    InodeCompact :=
  let c := { c with Ino := nid % 2 ^ 32, Size := size % 2 ^ 32 }
  if inlined then
    { c with Format := setBits c.Format InodeDataLayoutFlatInline InodeDataLayoutBit InodeDataLayoutBits }
  else
    { c with
      Format := setBits c.Format InodeDataLayoutFlatPlain InodeDataLayoutBit InodeDataLayoutBits
      RawBlockAddr := (dataSize / BlockSize) % 2 ^ 32 }

/-- Update the extended record fields assigned in the firstPass loop body. -/
def planExtended (x : InodeExtended) (nid size : Nat) (inlined : Bool) (dataSize : Nat) :
    InodeExtended :=
  let x := { x with Ino := nid % 2 ^ 32, Size := size % 2 ^ 64 }
  if inlined then
    { x with Format := setBits x.Format InodeDataLayoutFlatInline InodeDataLayoutBit InodeDataLayoutBits }
  else
    { x with
      Format := setBits x.Format InodeDataLayoutFlatPlain InodeDataLayoutBit InodeDataLayoutBits
      RawBlockAddr := (dataSize / BlockSize) % 2 ^ 32 }

/-- One iteration of the firstPass loop (writer source lines 101..163). -/
def firstPassStep (st : PlanState) (pn : WPath × FNode) : Except WErr PlanState := do
  let ino ← match lookupPath st.plan pn.1 with
    | some r => pure r
    | none => .error WErr.unsupportedType
  let size ← dataSizeForInode st.plan pn.1 pn.2
  let inlined := decide (size ≤ MaxInlineDataSize)
  let metaSize₁ :=
    if inlined then
      let spaceAvailable := roundUp st.metaSize BlockSize - st.metaSize
      if spaceAvailable > 0 ∧ ino.recSize + size > spaceAvailable then
        roundUp st.metaSize BlockSize
      else st.metaSize
    else st.metaSize
  let nid ← offsetToNID metaSize₁
  let ino₂ : InodeRec := match ino with
    | .compact c => .compact (planCompact c nid size inlined st.dataSize)
    | .extended x => .extended (planExtended x nid size inlined st.dataSize)
  let plan₂ := updatePath st.plan pn.1 ino₂
  let metaSize₂ := metaSize₁ + ino₂.recSize
  if inlined then
    .ok ⟨plan₂, roundUp (metaSize₂ + size) InodeSlotSize, st.dataSize⟩
  else
    .ok ⟨plan₂, metaSize₂, roundUp (st.dataSize + size) BlockSize⟩

/-- The fix-up loop of firstPass (writer source lines 171..188): every
record planned with a nonzero out-of-line raw block address is rebased by
the data region's base block (a uint32 addition). -/
def firstPassFix (plan : List (WPath × InodeRec)) (dataBlockAddr : Nat) :
    List (WPath × InodeRec) :=
  plan.map (fun e =>
    match e.2 with
    | .compact c =>
      if c.RawBlockAddr > 0 then
        (e.1, .compact { c with RawBlockAddr := (c.RawBlockAddr + dataBlockAddr) % 2 ^ 32 })
      else e
    | .extended x =>
      if x.RawBlockAddr > 0 then
        (e.1, .extended { x with RawBlockAddr := (x.RawBlockAddr + dataBlockAddr) % 2 ^ 32 })
      else e)

/-- Model of writer.firstPass (writer source lines 100..191): populate the
plan, run the sizing loop over the walk order, round the metadata size to a
block boundary, and rebase the raw block addresses. The returned state
carries the final plan and the metadata and data sizes. -/
def firstPass (src : FNode) : Except WErr PlanState := do
  let st ← (src.walk []).foldlM firstPassStep ⟨populateInodes src, 0, 0⟩
  let metaSize := roundUp st.metaSize BlockSize
  let dataBlockAddr := 1 + metaSize / BlockSize
  .ok ⟨firstPassFix st.plan dataBlockAddr, metaSize, st.dataSize⟩

/-- The superblock constructed and written by writer.write (writer source
lines 73..94): magic, block size bits, the inode count, the total block
count, the metadata base block, then the checksum populated by
SuperBlock.checksum. All other fields keep their zero values. -/
def writeSuperBlock (src : FNode) : Except WErr SuperBlock := do
  let st ← firstPass src
  .ok (SuperBlock.withChecksum
    { SuperBlock.zero with
      Magic := SuperBlockMagicV1,
      BlockSizeBits := BlockSizeBits,
      Inodes := st.plan.length % 2 ^ 64,
      Blocks := (1 + (st.metaSize + st.dataSize) / BlockSize) % 2 ^ 32,
      MetaBlockAddr := 1 })

/-- The name of the first dirent of block b, as emitted by the iteration
(specification-side shorthand used to state the binary searches' invariants). -/
def fstName (ls : List (List DEntry)) (b : Nat) : Name := ((ls.getD b []).getD 0 dfltEntry).1

/-- Entry order: strict name order on emitted entries. -/
def entLt (a b : DEntry) : Prop := nameLt a.1 b.1

/-- Postcondition of the outer block-level binary search: it never fails,
an early return is a dirent of the directory carrying the queried name, and
the final candidate is either the zero sentinel with the name absent from
the whole directory, or the unique block that can contain the name. -/
def OuterPost (i : Image) (ino : Inode) (q : Name) (ls : List (List DEntry))
    (res : Except RErr (Dirent ⊕ BlockData × Nat)) : Prop :=
  (∀ e, res ≠ .error e) ∧
  (∀ d, res = .ok (.inl d) →
    ∃ en ∈ ls.flatten, en.1 = q ∧ d.Nid = en.2.2 ∧ d.FileType = en.2.1) ∧
  (∀ tb₂ tnd₂, res = .ok (.inr (tb₂, tnd₂)) →
    (tb₂ = ⟨0, 0⟩ ∧ (∀ en ∈ ls.flatten, en.1 ≠ q)) ∨
    (∃ m, m < ino.blocks ∧ tb₂ = ino.getBlockDataInfo i m ∧
      tnd₂ = (ls.getD m []).length ∧ nameLt (fstName ls m) q ∧
      ∀ b, b < ino.blocks → b ≠ m → ∀ en ∈ ls.getD b [], en.1 ≠ q))

/-- Postcondition of the inner entry-level binary search within the target
block's entry list lm: it only fails with NotFound, and then the name is
absent from the block; a found dirent carries the queried name's nid and
file type. -/
def InnerPost (q : Name) (lm : List DEntry) (res : Except RErr Dirent) : Prop :=
  (∀ e, res = .error e → e = .notExist) ∧
  (res = .error .notExist → ∀ en ∈ lm, en.1 ≠ q) ∧
  (∀ d, res = .ok d → ∃ en ∈ lm, en.1 = q ∧ d.Nid = en.2.2 ∧ d.FileType = en.2.1)

/-! Concrete images and sources used as witnesses and counterexamples. -/

/-- Superblock of the hand-laid test images: metadata at block 1, 4096-byte
blocks, root nid 0, and a build time to observe through compact inodes. -/
def sbA : SuperBlock :=
  { SuperBlock.zero with
    Magic := SuperBlockMagicV1
    BlockSizeBits := 12
    MetaBlockAddr := 1
    BuildTime := 1234
    BuildTimeNsec := 56 }

/-- Root directory inode record of image A: compact, FlatInline (format 4),
directory mode 0o755, three links, 40 bytes of inline dirent payload. -/
def rootInodeRecA : InodeCompact := ⟨4, 0, 0o40755, 3, 40, 0, 0, 0, 0, 0, 0⟩

/-- Symlink inode record of image A: compact, FlatInline, mode 0o777 symlink
of size 1 (the target is the one-byte name "a", forming a cycle). -/
def symInodeRecA : InodeCompact := ⟨4, 0, 0o120777, 1, 1, 0, 0, 3, 0, 0, 0⟩

/-- Inline dirent payload of image A's root: the sorted entries ".", ".."
(both nid 0) and the symlink "a" at nid 3. -/
def rootDirPayloadA : List Nat :=
  marshalDirent ⟨0, 36, FT_DIR, 0⟩ ++ marshalDirent ⟨0, 37, FT_DIR, 0⟩ ++
  marshalDirent ⟨3, 39, FT_SYMLINK, 0⟩ ++ [46] ++ [46, 46] ++ [97]

/-- The metadata region bytes of image A: root inode and its inline payload,
padding to the next inode slot, the symlink inode at nid 3, and the one-byte
link target "a". -/
def metaRegionA : List Nat :=
  marshalInodeCompact rootInodeRecA ++ rootDirPayloadA ++ List.replicate 24 0 ++
  marshalInodeCompact symInodeRecA ++ [97]

/-- Image A: a valid image whose root directory contains a symlink "a" whose
target is "a" — a symlink cycle reachable from the queried path. -/
def imgA : Image :=
  { src := fun off => if off < 4096 then 0 else metaRegionA.getD (off - 4096) 0
    srcSize := 4225
    sb := sbA }

/-- The opened filesystem over image A. -/
def fsA : Filesystem := ⟨imgA⟩

/-- The decoded root inode of image A (as computed by Image.inode imgA 0). -/
def inoRootA : Inode :=
  ⟨0, 4128, 1, 4, 16877, 0, 40, 1234, 56, 0, 0, 3⟩

/-- The decoded symlink inode of image A (as computed by Image.inode imgA 3). -/
def inoSymA : Inode :=
  ⟨0, 4224, 1, 4, 41471, 3, 1, 1234, 56, 0, 0, 1⟩

/-- Root directory inode record of image B (same shape as image A). -/
def rootInodeRecB : InodeCompact := ⟨4, 0, 0o40755, 3, 40, 0, 0, 0, 0, 0, 0⟩

/-- Inline dirent payload of image B's root: ".", ".." and a regular file
"x" at nid 3. -/
def rootDirPayloadB : List Nat :=
  marshalDirent ⟨0, 36, FT_DIR, 0⟩ ++ marshalDirent ⟨0, 37, FT_DIR, 0⟩ ++
  marshalDirent ⟨3, 39, FT_REG_FILE, 0⟩ ++ [46] ++ [46, 46] ++ [120]

/-- The inode record of "x" in image B: its xattr count is 1, which the
inode decoder rejects as unsupported. -/
def xInodeRecB : InodeCompact := ⟨0, 1, 0o100644, 1, 0, 0, 0, 3, 0, 0, 0⟩

/-- Metadata region of image B. -/
def metaRegionB : List Nat :=
  marshalInodeCompact rootInodeRecB ++ rootDirPayloadB ++ List.replicate 24 0 ++
  marshalInodeCompact xInodeRecB

/-- Image B: a valid root directory whose entry "x" points at an inode the
decoder rejects (nonzero xattr count). -/
def imgB : Image :=
  { src := fun off => if off < 4096 then 0 else metaRegionB.getD (off - 4096) 0
    srcSize := 4224
    sb := sbA }

/-- The opened filesystem over image B. -/
def fsB : Filesystem := ⟨imgB⟩

/-- Source metadata for a plain directory with zero modification time. -/
def metaDir : Meta := ⟨0o755, false, false, false, 0, 0, true, 0, 0, 0⟩

/-- Source metadata for a plain file with zero modification time. -/
def metaFileZ : Meta := ⟨0o644, false, false, false, 0, 0, true, 0, 0, 0⟩

/-- Source C5: a root directory containing one empty regular file "a". -/
def srcC5 : FNode := .dir metaDir [([97], .file metaFileZ 0)]

/-- The record the writer plans for the empty file "a" of srcC5: compact,
FlatInline (format 4), size 0, at nid 2. -/
def recC5 : InodeCompact := ⟨4, 0, 0o100644, 1, 0, 0, 0, 2, 0, 0, 0⟩

/-- Image C5: an image whose nid-2 slot holds exactly the record the writer
plans for the empty file of srcC5. -/
def imgC5 : Image :=
  { src := fun off => if off < 4096 then 0
      else (List.replicate 64 0 ++ marshalInodeCompact recC5).getD (off - 4096) 0
    srcSize := 4224
    sb := sbA }

/-- Root directory inode record of image A2 (an image within the supported
subset that contains an empty regular file stored FlatPlain). -/
def rootInodeRecA2 : InodeCompact := ⟨4, 0, 0o40755, 3, 40, 0, 0, 0, 0, 0, 0⟩

/-- The empty regular file "a" of image A2: compact, FlatPlain (format 0),
size 0 — accepted by the decoder. -/
def aInodeRecA2 : InodeCompact := ⟨0, 0, 0o100644, 1, 0, 0, 0, 3, 0, 0, 0⟩

/-- Inline dirent payload of image A2's root: ".", ".." and the empty
regular file "a" at nid 3. -/
def rootDirPayloadA2 : List Nat :=
  marshalDirent ⟨0, 36, FT_DIR, 0⟩ ++ marshalDirent ⟨0, 37, FT_DIR, 0⟩ ++
  marshalDirent ⟨3, 39, FT_REG_FILE, 0⟩ ++ [46] ++ [46, 46] ++ [97]

/-- Metadata region of image A2. -/
def metaRegionA2 : List Nat :=
  marshalInodeCompact rootInodeRecA2 ++ rootDirPayloadA2 ++ List.replicate 24 0 ++
  marshalInodeCompact aInodeRecA2

/-- Image A2: a valid supported image containing an empty regular file. -/
def imgA2 : Image :=
  { src := fun off => if off < 4096 then 0 else metaRegionA2.getD (off - 4096) 0
    srcSize := 4224
    sb := sbA }

/-- The decoded inode of the empty FlatPlain file "a" of image A2. -/
def inoFileA2 : Inode := ⟨0, 0, 0, 0, 0o100644, 3, 0, 1234, 56, 0, 0, 1⟩

/-- Source metadata mirroring what the writer sees when its source is the
opened image A2: a nonzero modification time (the erofs fileInfo ModTime is
never the zero Time), directory variant. -/
def metaDirT : Meta := ⟨0o755, false, false, false, 0, 0, false, 999, 0, 0⟩

/-- File variant of metaDirT. -/
def metaFileT : Meta := ⟨0o644, false, false, false, 0, 0, false, 999, 0, 0⟩

/-- Source C2: the tree obtained by walking the opened image A2 — a root
directory with one empty regular file "a", with nonzero mtimes. -/
def srcC2 : FNode := .dir metaDirT [([97], .file metaFileT 0)]

/-- The record the writer plans for the empty file "a" of srcC2: extended,
FlatInline (format 5), size 0, at nid 3. -/
def recC2 : InodeExtended := ⟨5, 0, 0o100644, 0, 0, 0, 3, 0, 0, 999, 0, 1, []⟩

/-- Image C2x: an image whose nid-3 slot holds exactly the record the writer
plans for the empty file of srcC2. -/
def imgC2x : Image :=
  { src := fun off => if off < 4096 then 0
      else (List.replicate 96 0 ++ marshalInodeExtended recC2).getD (off - 4096) 0
    srcSize := 4256
    sb := sbA }

/-- The entry list of the directory "d" of source C6: one file named "!"
(byte 33, which orders before "."). -/
def entriesD : List (Name × FNode) := [([33], .file metaFileZ 0)]

/-- Source C6: a root directory containing a directory "d" that contains a
file named "!". -/
def srcC6 : FNode := .dir metaDir [([100], .dir metaDir entriesD)]

/-- The dirent sequence the writer produces for directory "d" of srcC6:
synthetic "." and "..", then "!" at its planned nid 5 — not alphabetically
sorted, since "!" orders before ".". -/
def direntsC6 : List Dirent := [⟨0, 0, FT_DIR, 0⟩, ⟨0, 0, FT_DIR, 0⟩, ⟨5, 0, FT_REG_FILE, 0⟩]

/-- The names of the dirent sequence for directory "d" of srcC6. -/
def namesC6 : List Name := [[46], [46, 46], [33]]

/-- The encoded payload of directory "d" of srcC6 (one 41-byte block). -/
def payloadC6 : List Nat := encodeDirents direntsC6 namesC6

/-- Image C6: a directory inode whose inline payload is exactly the writer's
payload for directory "d" of srcC6. -/
def imgC6 : Image :=
  { src := fun off => if off < 4096 then 0
      else (marshalInodeCompact ⟨4, 0, 0o40755, 3, 41, 0, 0, 0, 0, 0, 0⟩ ++ payloadC6).getD
        (off - 4096) 0
    srcSize := 4169
    sb := sbA }

/-- The decoded directory inode of image C6. -/
def inoC6 : Inode := ⟨0, 4128, 1, 4, 16877, 0, 41, 1234, 56, 0, 0, 3⟩

/-- Source C3: an empty root directory. -/
def srcC3 : FNode := .dir metaDir []

/-- The superblock the writer emits for srcC3 (its checksum expressed by
the same population the writer performs). -/
def sbC3 : SuperBlock :=
  SuperBlock.withChecksum
    { SuperBlock.zero with
      Magic := SuperBlockMagicV1,
      BlockSizeBits := BlockSizeBits,
      Inodes := 1,
      Blocks := 2,
      MetaBlockAddr := 1 }

/-- The record the writer's first pass plans for the root of srcC3. -/
def recRootC3 : InodeCompact := ⟨4, 0, 0o40755, 2, 14, 0, 0, 0, 0, 0, 0⟩

/-- The final plan state of the writer's first pass over srcC3. -/
def stC3 : PlanState := ⟨[([], .compact recRootC3)], 4096, 0⟩

/-- The dirent/name lists dataForInode builds for an empty non-root
directory: exactly the two synthetic entries. -/
def dnW : List Dirent × List Name :=
  ([⟨0, 0, FT_DIR, 0⟩, ⟨0, 0, FT_DIR, 0⟩], [[46], [46, 46]])

/-- A superblock with the checksum feature bit set, used to exercise the
checksum verification path. -/
def sbW : SuperBlock :=
  { SuperBlock.zero with
    Magic := SuperBlockMagicV1
    FeatureCompat := 1
    BlockSizeBits := 12
    BuildTime := 77 }

/-- Image W: the superblock sbW with its checksum populated, over an
otherwise all-zero first block. -/
def imgW : Image := ⟨fun _ => 0, 4096, sbW.withChecksum⟩

end Erofs

namespace Erofs

/-! Theorems. Generic lemmas about the loop bodies first: the two binary
search loops are defined by well-founded recursion, so concrete evaluation
and the correctness proofs go through their unfolding equations, packaged as
one exit lemma and one probe lemma per loop. -/

theorem lookupOuterGo_exit (i : Image) (ino : Inode) (q : Name) (l : Nat) (r : Int)
    (tb : BlockData) (tnd : Nat) (h : (l : Int) > r) :
    Inode.lookupOuterGo i ino q l r tb tnd = .ok (.inr (tb, tnd)) := by
  rw [Inode.lookupOuterGo]
  exact dif_pos h

theorem lookupOuterGo_probe (i : Image) (ino : Inode) (q : Name) (l : Nat) (r : Int)
    (tb : BlockData) (tnd : Nat) (m : Nat) (d0 : Dirent) (d0n : Name)
    (hlr : ¬((l : Int) > r)) (hm : ((l : Int) + r).toNat >>> 1 = m)
    (hd0 : Inode.getDirent0 i (ino.getBlockDataInfo i m) = .ok d0)
    (hn : Inode.getDirentName i d0 (ino.getBlockDataInfo i m).base (ino.getBlockDataInfo i m)
      (d0.NameOff / DirentSize == 1) = .ok d0n) :
    Inode.lookupOuterGo i ino q l r tb tnd =
      (match compareBytes q d0n with
        | 0 => .ok (.inl d0)
        | 1 => Inode.lookupOuterGo i ino q (m + 1) r (ino.getBlockDataInfo i m)
            (d0.NameOff / DirentSize)
        | _ => Inode.lookupOuterGo i ino q l ((m : Int) - 1) tb tnd) := by
  conv_lhs => rw [Inode.lookupOuterGo]
  rw [dif_neg hlr]
  simp only [hm, hd0, hn]

theorem lookupInnerGo_exit (i : Image) (ino : Inode) (q : Name) (tb : BlockData)
    (tnd : Nat) (dl dr : Nat) (hdl : 1 ≤ dl) (h : dl > dr) :
    Inode.lookupInnerGo i ino q tb tnd dl dr hdl = .error .notExist := by
  rw [Inode.lookupInnerGo]
  exact dif_pos h

theorem lookupInnerGo_probe (i : Image) (ino : Inode) (q : Name) (tb : BlockData)
    (tnd : Nat) (dl dr : Nat) (hdl : 1 ≤ dl) (m : Nat) (d : Dirent) (dn : Name)
    (hlr : ¬(dl > dr)) (hm : (dl + dr) >>> 1 = m)
    (hd : i.direntAt (tb.base + m * DirentSize) = .ok d)
    (hn : Inode.getDirentName i d (tb.base + m * DirentSize) tb (m == tnd - 1) = .ok dn) :
    Inode.lookupInnerGo i ino q tb tnd dl dr hdl =
      (match compareBytes q dn with
        | 0 => .ok d
        | 1 => Inode.lookupInnerGo i ino q tb tnd (m + 1) dr (by omega)
        | _ => Inode.lookupInnerGo i ino q tb tnd dl (m - 1) hdl) := by
  conv_lhs => rw [Inode.lookupInnerGo]
  rw [dif_neg hlr]
  simp only [hm, hd, hn]

/-- Concrete evaluation: looking up "!" in the image-C6 directory fails
with NotFound, although the directory contains "!". -/
theorem lookupC6eval : Inode.Lookup imgC6 inoC6 [33] = .error .notExist := by
  have h1 : Inode.lookupOuterGo imgC6 inoC6 [33] 0 ((inoC6.blocks : Int) - 1) ⟨0, 0⟩ 0 =
      .ok (.inr (⟨0, 0⟩, 0)) := by
    rw [lookupOuterGo_probe _ _ _ _ _ _ _ 0 ⟨0, 36, 2, 0⟩ [46]
      (by decide) (by decide) (by decide) (by decide)]
    rw [show compareBytes [33] [46] = -1 from by decide]
    exact lookupOuterGo_exit _ _ _ _ _ _ _ (by decide)
  rw [Inode.Lookup, h1]
  decide

/-! Order theory of compareBytes: it decides a strict total order on byte
strings. -/

theorem compareBytes_self (a : List Nat) : compareBytes a a = 0 := by
  induction a with
  | nil => rfl
  | cons x xs ih => simp [compareBytes, ih]

theorem compareBytes_eq_zero {a b : List Nat} (h : compareBytes a b = 0) : a = b := by
  induction a generalizing b with
  | nil => cases b with
    | nil => rfl
    | cons y ys => simp [compareBytes] at h
  | cons x xs ih =>
    cases b with
    | nil => simp [compareBytes] at h
    | cons y ys =>
      by_cases hxy : x < y
      · simp [compareBytes, hxy] at h
      · by_cases hyx : y < x
        · simp [compareBytes, hxy, hyx] at h
        · have hx : x = y := Nat.le_antisymm (Nat.not_lt.mp hyx) (Nat.not_lt.mp hxy)
          simp only [compareBytes, if_neg hxy, if_neg hyx] at h
          rw [hx, ih h]

theorem compareBytes_neg_of_pos {a b : List Nat} (h : compareBytes a b = 1) :
    compareBytes b a = -1 := by
  induction a generalizing b with
  | nil => cases b with
    | nil => simp [compareBytes] at h
    | cons y ys => simp [compareBytes] at h
  | cons x xs ih =>
    cases b with
    | nil => simp [compareBytes]
    | cons y ys =>
      by_cases hxy : x < y
      · simp [compareBytes, hxy] at h
      · by_cases hyx : y < x
        · simp [compareBytes, hyx, Nat.lt_asymm hyx]
        · simp only [compareBytes, if_neg hxy, if_neg hyx] at h
          simp only [compareBytes, if_neg hyx, if_neg hxy]
          exact ih h

theorem compareBytes_pos_of_neg {a b : List Nat} (h : compareBytes a b = -1) :
    compareBytes b a = 1 := by
  induction a generalizing b with
  | nil => cases b with
    | nil => simp [compareBytes] at h
    | cons y ys => simp [compareBytes]
  | cons x xs ih =>
    cases b with
    | nil => simp [compareBytes] at h
    | cons y ys =>
      by_cases hxy : x < y
      · simp [compareBytes, hxy, Nat.lt_asymm hxy]
      · by_cases hyx : y < x
        · simp [compareBytes, hxy, hyx] at h
        · simp only [compareBytes, if_neg hxy, if_neg hyx] at h
          simp only [compareBytes, if_neg hyx, if_neg hxy]
          exact ih h

theorem compareBytes_cases (a b : List Nat) :
    compareBytes a b = -1 ∨ compareBytes a b = 0 ∨ compareBytes a b = 1 := by
  induction a generalizing b with
  | nil => cases b with
    | nil => simp [compareBytes]
    | cons y ys => simp [compareBytes]
  | cons x xs ih =>
    cases b with
    | nil => simp [compareBytes]
    | cons y ys =>
      by_cases hxy : x < y
      · simp [compareBytes, hxy]
      · by_cases hyx : y < x
        · simp [compareBytes, hxy, hyx]
        · simp only [compareBytes, if_neg hxy, if_neg hyx]
          exact ih ys

theorem nameLt_trans {a b c : List Nat} (hab : nameLt a b) (hbc : nameLt b c) :
    nameLt a c := by
  unfold nameLt at *
  induction a generalizing b c with
  | nil =>
    cases c with
    | nil =>
      cases b with
      | nil => exact hab
      | cons y ys => simp [compareBytes] at hbc
    | cons z zs => simp [compareBytes]
  | cons x xs ih =>
    cases b with
    | nil => simp [compareBytes] at hab
    | cons y ys =>
      cases c with
      | nil => simp [compareBytes] at hbc
      | cons z zs =>
        by_cases hxy : x < y
        · by_cases hyz : y < z
          · simp [compareBytes, Nat.lt_trans hxy hyz]
          · by_cases hzy : z < y
            · simp [compareBytes, hyz, hzy] at hbc
            · have : y = z := Nat.le_antisymm (Nat.not_lt.mp hzy) (Nat.not_lt.mp hyz)
              subst this
              simp [compareBytes, hxy]
        · by_cases hyx : y < x
          · simp [compareBytes, hxy, hyx] at hab
          · have hx : x = y := Nat.le_antisymm (Nat.not_lt.mp hyx) (Nat.not_lt.mp hxy)
            subst hx
            simp only [compareBytes, if_neg hxy, if_neg hyx] at hab
            by_cases hyz : x < z
            · simp [compareBytes, hyz]
            · by_cases hzy : z < x
              · simp [compareBytes, hyz, hzy] at hbc
              · have : x = z := Nat.le_antisymm (Nat.not_lt.mp hzy) (Nat.not_lt.mp hyz)
                subst this
                simp only [compareBytes, if_neg hyz, if_neg hzy] at hbc ⊢
                exact ih hab hbc

theorem nameLt_irrefl (a : List Nat) : ¬nameLt a a := by
  unfold nameLt
  rw [compareBytes_self]
  decide

theorem nameLt_ne {a b : List Nat} (h : nameLt a b) : a ≠ b := by
  intro he
  subst he
  exact nameLt_irrefl a h

/-! Decomposition of the directory iteration: what a successful IterDirents
run establishes about every on-disk entry it emitted. -/

theorem exceptBind_ok {e a b : Type} (x : a) (f : a → Except e b) :
    (Except.ok x >>= f) = f x := rfl

theorem exceptBind_error {e a b : Type} (er : e) (f : a → Except e b) :
    ((Except.error er : Except e a) >>= f) = Except.error er := rfl

theorem iterBlockGo_length {i : Image} {block : BlockData} :
    ∀ {r : Nat} {d : Dirent} {off : Nat} {l : List DEntry},
      Inode.iterBlockGo i block r d off = .ok l → l.length = r := by
  intro r
  induction r with
  | zero =>
    intro d off l h
    simp only [Inode.iterBlockGo] at h
    cases h
    rfl
  | succ n ih =>
    intro d off l h
    rw [Inode.iterBlockGo] at h
    cases hname : Inode.getDirentName i d off block (n + 1 == 1) with
    | error e => rw [hname] at h; simp [exceptBind_error] at h
    | ok name =>
      rw [hname] at h
      simp only [exceptBind_ok] at h
      by_cases hn : n = 0
      · subst hn
        simp only [if_pos rfl] at h
        cases h
        rfl
      · simp only [if_neg hn] at h
        cases hd₂ : i.direntAt (off + DirentSize) with
        | error e => rw [hd₂] at h; simp [exceptBind_error] at h
        | ok d₂ =>
          rw [hd₂] at h
          simp only [exceptBind_ok] at h
          cases hrest : Inode.iterBlockGo i block n d₂ (off + DirentSize) with
          | error e => rw [hrest] at h; simp [exceptBind_error] at h
          | ok rest =>
            rw [hrest] at h
            simp only [exceptBind_ok] at h
            cases h
            simp [ih hrest]

theorem iterBlockGo_get {i : Image} {block : BlockData} :
    ∀ {r : Nat} {d : Dirent} {off : Nat} {l : List DEntry},
      Inode.iterBlockGo i block r d off = .ok l → ∀ k, k < r →
      ∃ dk : Dirent,
        (k = 0 ∧ dk = d ∨ 0 < k ∧ i.direntAt (off + k * DirentSize) = .ok dk) ∧
        Inode.getDirentName i dk (off + k * DirentSize) block (r - k == 1) =
          .ok (l.getD k dfltEntry).1 ∧
        (l.getD k dfltEntry).2.1 = dk.FileType ∧ (l.getD k dfltEntry).2.2 = dk.Nid := by
  intro r
  induction r with
  | zero => intro d off l h k hk; omega
  | succ n ih =>
    intro d off l h k hk
    rw [Inode.iterBlockGo] at h
    cases hname : Inode.getDirentName i d off block (n + 1 == 1) with
    | error e => rw [hname] at h; simp [exceptBind_error] at h
    | ok name =>
      rw [hname] at h
      simp only [exceptBind_ok] at h
      by_cases hn : n = 0
      · subst hn
        simp only [if_pos rfl] at h
        cases h
        have hk0 : k = 0 := by omega
        subst hk0
        refine ⟨d, Or.inl ⟨rfl, rfl⟩, ?_, rfl, rfl⟩
        simpa using hname
      · simp only [if_neg hn] at h
        cases hd₂ : i.direntAt (off + DirentSize) with
        | error e => rw [hd₂] at h; simp [exceptBind_error] at h
        | ok d₂ =>
          rw [hd₂] at h
          simp only [exceptBind_ok] at h
          cases hrest : Inode.iterBlockGo i block n d₂ (off + DirentSize) with
          | error e => rw [hrest] at h; simp [exceptBind_error] at h
          | ok rest =>
            rw [hrest] at h
            simp only [exceptBind_ok] at h
            cases h
            cases k with
            | zero =>
              refine ⟨d, Or.inl ⟨rfl, rfl⟩, ?_, rfl, rfl⟩
              simpa using hname
            | succ k₂ =>
              have hk₂ : k₂ < n := by omega
              obtain ⟨dk, hdisj, hnm, hft, hnid⟩ := ih hrest k₂ hk₂
              refine ⟨dk, ?_, ?_, ?_, ?_⟩
              · right
                refine ⟨Nat.succ_pos k₂, ?_⟩
                rcases hdisj with ⟨hk0, hdd⟩ | ⟨_, hda⟩
                · subst hk0
                  subst hdd
                  simpa [DirentSize] using hd₂
                · have : off + (k₂ + 1) * DirentSize = off + DirentSize + k₂ * DirentSize := by
                    simp [DirentSize]; ring
                  rw [this]
                  exact hda
              · have harith : off + (k₂ + 1) * DirentSize = off + DirentSize + k₂ * DirentSize := by
                  simp [DirentSize]; ring
                have hflag : (n + 1 - (k₂ + 1) == 1) = (n - k₂ == 1) := by
                  simp [Nat.succ_sub_succ]
                rw [harith, hflag]
                simpa using hnm
              · simpa using hft
              · simpa using hnid

theorem blockEntries_parts {i : Image} {ino : Inode} {b : Nat} {l : List DEntry}
    (h : Inode.blockEntries i ino b = .ok l) :
    ∃ d0, Inode.getDirent0 i (ino.getBlockDataInfo i b) = .ok d0 ∧
      d0.NameOff / DirentSize = l.length ∧
      Inode.iterBlockGo i (ino.getBlockDataInfo i b) (d0.NameOff / DirentSize) d0
        (ino.getBlockDataInfo i b).base = .ok l := by
  rw [Inode.blockEntries] at h
  cases hd0 : Inode.getDirent0 i (ino.getBlockDataInfo i b) with
  | error e => rw [hd0] at h; simp [exceptBind_error] at h
  | ok d0 =>
    rw [hd0] at h
    simp only [exceptBind_ok] at h
    exact ⟨d0, rfl, (iterBlockGo_length h).symm, h⟩

theorem iterBlocksGo_decomp {i : Image} {ino : Inode} :
    ∀ {count b0 : Nat} {L : List DEntry},
      Inode.iterBlocksGo i ino count b0 = .ok L →
      ∃ ls : List (List DEntry), ls.length = count ∧
        (∀ k, k < count → Inode.blockEntries i ino (b0 + k) = .ok (ls.getD k [])) ∧
        L = ls.flatten := by
  intro count
  induction count with
  | zero =>
    intro b0 L h
    simp only [Inode.iterBlocksGo] at h
    cases h
    exact ⟨[], rfl, fun k hk => absurd hk (by omega), rfl⟩
  | succ n ih =>
    intro b0 L h
    rw [Inode.iterBlocksGo] at h
    cases hb : Inode.blockEntries i ino b0 with
    | error e => rw [hb] at h; simp [exceptBind_error] at h
    | ok lb =>
      rw [hb] at h
      simp only [exceptBind_ok] at h
      cases hrest : Inode.iterBlocksGo i ino n (b0 + 1) with
      | error e => rw [hrest] at h; simp [exceptBind_error] at h
      | ok rest =>
        rw [hrest] at h
        simp only [exceptBind_ok] at h
        cases h
        obtain ⟨ls, hlen, hblocks, hflat⟩ := ih hrest
        refine ⟨lb :: ls, by simp [hlen], ?_, by simp [hflat]⟩
        intro k hk
        cases k with
        | zero => simpa using hb
        | succ k₂ =>
          have : b0 + (k₂ + 1) = b0 + 1 + k₂ := by omega
          rw [this]
          simpa using hblocks k₂ (by omega)

/-! Supporting facts for the binary search correctness proofs. -/

theorem getDirent0_bounds {i : Image} {block : BlockData} {d0 : Dirent}
    (h : Inode.getDirent0 i block = .ok d0) :
    DirentSize ≤ d0.NameOff ∧ d0.NameOff < block.size := by
  rw [Inode.getDirent0] at h
  cases hd : i.direntAt block.base with
  | error e => rw [hd] at h; simp [exceptBind_error] at h
  | ok d =>
    rw [hd] at h
    simp only [exceptBind_ok] at h
    by_cases hb : d.NameOff < DirentSize ∨ d.NameOff ≥ block.size
    · simp [if_pos hb] at h
    · simp only [if_neg hb] at h
      cases h
      push_neg at hb
      exact hb

/-- Context for the lookup correctness development: an image, a directory
inode, and the per-block entry lists of a successful iteration, globally
strictly sorted by name. -/
structure LookupCtx (i : Image) (ino : Inode) (ls : List (List DEntry)) : Prop where
  hlen : ls.length = ino.blocks
  hblk : ∀ b, b < ino.blocks → Inode.blockEntries i ino b = .ok (ls.getD b [])
  hpw : List.Pairwise entLt ls.flatten

theorem LookupCtx.block_nonempty {i ino ls} (ctx : LookupCtx i ino ls) {b : Nat}
    (hb : b < ino.blocks) : 1 ≤ (ls.getD b []).length := by
  obtain ⟨d0, hd0, hcount, _⟩ := blockEntries_parts (ctx.hblk b hb)
  have := (getDirent0_bounds hd0).1
  have h12 : (1 : Nat) ≤ d0.NameOff / DirentSize := by
    rw [Nat.le_div_iff_mul_le (by simp [DirentSize])]
    simpa [DirentSize] using this
  omega

theorem LookupCtx.head_mem {i ino ls} (ctx : LookupCtx i ino ls) {b : Nat}
    (hb : b < ino.blocks) : (ls.getD b []).getD 0 dfltEntry ∈ ls.getD b [] := by
  have h1 := ctx.block_nonempty hb
  have : (ls.getD b []).getD 0 dfltEntry = (ls.getD b []).headD dfltEntry := by
    cases hl : ls.getD b [] with
    | nil => rfl
    | cons x xs => rfl
  rw [this]
  cases hl : ls.getD b [] with
  | nil => rw [hl] at h1; simp at h1
  | cons x xs => simp

theorem LookupCtx.block_mem_flatten {i ino ls} (ctx : LookupCtx i ino ls) {b : Nat}
    (hb : b < ino.blocks) {en : DEntry} (hen : en ∈ ls.getD b []) : en ∈ ls.flatten := by
  have hbl : b < ls.length := by rw [ctx.hlen]; exact hb
  refine List.mem_flatten_of_mem ?_ hen
  rw [List.getD_eq_getElem?_getD, List.getElem?_eq_getElem hbl]
  exact List.getElem_mem hbl

theorem LookupCtx.within {i ino ls} (ctx : LookupCtx i ino ls) {b : Nat}
    (hb : b < ino.blocks) : List.Pairwise entLt (ls.getD b []) := by
  have hbl : b < ls.length := by rw [ctx.hlen]; exact hb
  have hmem : ls.getD b [] ∈ ls := by
    rw [List.getD_eq_getElem?_getD, List.getElem?_eq_getElem hbl]
    exact List.getElem_mem hbl
  exact ((List.pairwise_flatten.mp ctx.hpw).1 _ hmem)

theorem LookupCtx.cross {i ino ls} (ctx : LookupCtx i ino ls) {b b₂ : Nat}
    (hb : b < ino.blocks) (hb₂ : b₂ < ino.blocks) (hlt : b < b₂) {x y : DEntry}
    (hx : x ∈ ls.getD b []) (hy : y ∈ ls.getD b₂ []) : entLt x y := by
  have hbl : b < ls.length := by rw [ctx.hlen]; exact hb
  have hbl₂ : b₂ < ls.length := by rw [ctx.hlen]; exact hb₂
  have hcross := (List.pairwise_flatten.mp ctx.hpw).2
  have := (List.pairwise_iff_getElem.mp hcross) b b₂ hbl hbl₂ hlt
  have hx₂ : x ∈ ls[b] := by
    rw [List.getD_eq_getElem?_getD, List.getElem?_eq_getElem hbl] at hx
    simpa using hx
  have hy₂ : y ∈ ls[b₂] := by
    rw [List.getD_eq_getElem?_getD, List.getElem?_eq_getElem hbl₂] at hy
    simpa using hy
  exact this x hx₂ y hy₂

theorem LookupCtx.head_le {i ino ls} (ctx : LookupCtx i ino ls) {b : Nat}
    (hb : b < ino.blocks) {en : DEntry} (hen : en ∈ ls.getD b []) :
    en = (ls.getD b []).getD 0 dfltEntry ∨ entLt ((ls.getD b []).getD 0 dfltEntry) en := by
  have h1 := ctx.block_nonempty hb
  have hwithin := ctx.within hb
  cases hl : ls.getD b [] with
  | nil => rw [hl] at h1; simp at h1
  | cons x xs =>
    rw [hl] at hen hwithin
    simp only [hl, List.getD_cons_zero]
    rcases List.mem_cons.mp hen with he | he
    · exact Or.inl he
    · exact Or.inr ((List.pairwise_cons.mp hwithin).1 en he)

theorem LookupCtx.fst_mono {i ino ls} (ctx : LookupCtx i ino ls) {b b₂ : Nat}
    (hb : b < ino.blocks) (hb₂ : b₂ < ino.blocks) (hlt : b < b₂) :
    nameLt (fstName ls b) (fstName ls b₂) :=
  ctx.cross hb hb₂ hlt (ctx.head_mem hb) (ctx.head_mem hb₂)

theorem beq_sub_flag {len j : Nat} (hj : j < len) :
    ((len - j == 1) : Bool) = (j == len - 1) := by
  rw [Bool.eq_iff_iff]
  simp only [beq_iff_eq]
  omega

theorem LookupCtx.probe0 {i ino ls} (ctx : LookupCtx i ino ls) {m : Nat}
    (hm : m < ino.blocks) :
    ∃ d0, Inode.getDirent0 i (ino.getBlockDataInfo i m) = .ok d0 ∧
      d0.NameOff / DirentSize = (ls.getD m []).length ∧
      Inode.getDirentName i d0 (ino.getBlockDataInfo i m).base (ino.getBlockDataInfo i m)
        (d0.NameOff / DirentSize == 1) = .ok (fstName ls m) ∧
      ((ls.getD m []).getD 0 dfltEntry).2.1 = d0.FileType ∧
      ((ls.getD m []).getD 0 dfltEntry).2.2 = d0.Nid := by
  obtain ⟨d0, hd0, hcount, hgo⟩ := blockEntries_parts (ctx.hblk m hm)
  have hpos : 0 < d0.NameOff / DirentSize := by
    have := ctx.block_nonempty hm
    omega
  obtain ⟨dk, hdisj, hnm, hft, hnid⟩ := iterBlockGo_get hgo 0 hpos
  have hdk : dk = d0 := by
    rcases hdisj with ⟨_, h⟩ | ⟨h0, _⟩
    · exact h
    · omega
  rw [hdk] at hnm hft hnid
  refine ⟨d0, hd0, hcount, ?_, hft, hnid⟩
  have harith : (ino.getBlockDataInfo i m).base + 0 * DirentSize =
    (ino.getBlockDataInfo i m).base := by simp
  have hflag : ((d0.NameOff / DirentSize - 0 == 1) : Bool) =
      (d0.NameOff / DirentSize == 1) := by
    simp
  rw [harith, hflag] at hnm
  rw [hnm]
  rfl

theorem LookupCtx.probeEntry {i ino ls} (ctx : LookupCtx i ino ls) {m j : Nat}
    (hm : m < ino.blocks) (hj0 : 0 < j) (hj : j < (ls.getD m []).length) :
    ∃ dj, i.direntAt ((ino.getBlockDataInfo i m).base + j * DirentSize) = .ok dj ∧
      Inode.getDirentName i dj ((ino.getBlockDataInfo i m).base + j * DirentSize)
        (ino.getBlockDataInfo i m) (j == (ls.getD m []).length - 1) =
        .ok ((ls.getD m []).getD j dfltEntry).1 ∧
      ((ls.getD m []).getD j dfltEntry).2.1 = dj.FileType ∧
      ((ls.getD m []).getD j dfltEntry).2.2 = dj.Nid := by
  obtain ⟨d0, hd0, hcount, hgo⟩ := blockEntries_parts (ctx.hblk m hm)
  have hj₂ : j < d0.NameOff / DirentSize := by omega
  obtain ⟨dk, hdisj, hnm, hft, hnid⟩ := iterBlockGo_get hgo j hj₂
  have hdk : i.direntAt ((ino.getBlockDataInfo i m).base + j * DirentSize) = .ok dk := by
    rcases hdisj with ⟨h0, _⟩ | ⟨_, h⟩
    · omega
    · exact h
  refine ⟨dk, hdk, ?_, hft, hnid⟩
  rw [← beq_sub_flag hj, ← hcount]
  exact hnm

theorem LookupCtx.q_lt_entry {i ino ls} (ctx : LookupCtx i ino ls) {q : Name} {b : Nat}
    {en : DEntry} (hb : b < ino.blocks) (hen : en ∈ ls.getD b [])
    (hqb : nameLt q (fstName ls b)) : nameLt q en.1 := by
  rcases ctx.head_le hb hen with he | he
  · unfold fstName at hqb
    rw [← he] at hqb
    exact hqb
  · have he₂ : nameLt (fstName ls b) en.1 := he
    exact nameLt_trans hqb he₂

theorem LookupCtx.entry_lt_q {i ino ls} (ctx : LookupCtx i ino ls) {q : Name} {b m : Nat}
    {en : DEntry} (hb : b < ino.blocks) (hm : m < ino.blocks) (hbm : b < m)
    (hen : en ∈ ls.getD b []) (hfst : nameLt (fstName ls m) q) : nameLt en.1 q := by
  have hcross : entLt en ((ls.getD m []).getD 0 dfltEntry) :=
    ctx.cross hb hm hbm hen (ctx.head_mem hm)
  have hcross₂ : nameLt en.1 (fstName ls m) := hcross
  exact nameLt_trans hcross₂ hfst

theorem mem_flatten_idx {ls : List (List DEntry)} {en : DEntry} (h : en ∈ ls.flatten) :
    ∃ b, b < ls.length ∧ en ∈ ls.getD b [] := by
  obtain ⟨lb, hlb, hen⟩ := List.mem_flatten.mp h
  obtain ⟨b, hb, hbl⟩ := List.mem_iff_getElem.mp hlb
  refine ⟨b, hb, ?_⟩
  rw [List.getD_eq_getElem?_getD, List.getElem?_eq_getElem hb, hbl]
  exact hen

theorem lookupOuterGo_spec {i : Image} {ino : Inode} {ls : List (List DEntry)}
    (ctx : LookupCtx i ino ls) (q : Name) :
    ∀ (n : Nat) (l : Nat) (r : Int) (tb : BlockData) (tnd : Nat),
      (r + 1 - (l : Int)).toNat = n →
      l ≤ ino.blocks → r ≤ (ino.blocks : Int) - 1 →
      (∀ b, b < l → b < ino.blocks → nameLt (fstName ls b) q) →
      (∀ b, b < ino.blocks → r < (b : Int) → nameLt q (fstName ls b)) →
      ((tb = ⟨0, 0⟩ ∧ tnd = 0 ∧ l = 0) ∨
        (∃ m, m < ino.blocks ∧ l = m + 1 ∧ tb = ino.getBlockDataInfo i m ∧
          tnd = (ls.getD m []).length ∧ nameLt (fstName ls m) q)) →
      OuterPost i ino q ls (Inode.lookupOuterGo i ino q l r tb tnd) := by
  intro n
  induction n using Nat.strong_induction_on with
  | _ n ih =>
    intro l r tb tnd hn hl hr hI2 hI3 hI4
    by_cases hlr : (l : Int) > r
    · rw [lookupOuterGo_exit _ _ _ _ _ _ _ hlr]
      refine ⟨by simp, by simp, ?_⟩
      intro tb₂ tnd₂ heq
      simp only [Except.ok.injEq, Sum.inr.injEq, Prod.mk.injEq] at heq
      obtain ⟨rfl, rfl⟩ : tb₂ = tb ∧ tnd₂ = tnd := ⟨heq.1.symm, heq.2.symm⟩
      rcases hI4 with ⟨htb, htnd, hl0⟩ | ⟨m, hm, hlm, htb, htnd, hfst⟩
      · left
        refine ⟨htb, ?_⟩
        intro en hen hname
        obtain ⟨b, hb, henb⟩ := mem_flatten_idx hen
        rw [ctx.hlen] at hb
        have hrb : r < (b : Int) := by omega
        have hq : nameLt q en.1 := ctx.q_lt_entry hb henb (hI3 b hb hrb)
        rw [hname] at hq
        exact nameLt_irrefl q hq
      · right
        refine ⟨m, hm, htb, htnd, hfst, ?_⟩
        intro b hb hbm en henb hname
        by_cases hblt : b < m
        · have hq : nameLt en.1 q := ctx.entry_lt_q hb hm hblt henb hfst
          rw [hname] at hq
          exact nameLt_irrefl q hq
        · have hrb : r < (b : Int) := by omega
          have hq : nameLt q en.1 := ctx.q_lt_entry hb henb (hI3 b hb hrb)
          rw [hname] at hq
          exact nameLt_irrefl q hq
    · obtain ⟨mid, hmid⟩ : ∃ mid, ((l : Int) + r).toNat >>> 1 = mid := ⟨_, rfl⟩
      have hmid2 : mid = ((l : Int) + r).toNat / 2 := by
        rw [← hmid, Nat.shiftRight_eq_div_pow]
      have hmB : mid < ino.blocks := by
        clear ih hI2 hI3 hI4 hmid
        omega
      have hlm : l ≤ mid := by
        clear ih hI2 hI3 hI4 hmid
        omega
      have hmr : (mid : Int) ≤ r := by
        clear ih hI2 hI3 hI4 hmid
        omega
      obtain ⟨d0, hd0, hcount, hname0, hft0, hnid0⟩ := ctx.probe0 hmB
      rw [lookupOuterGo_probe _ _ _ _ _ _ _ mid _ _ hlr hmid hd0 hname0]
      rcases compareBytes_cases q (fstName ls mid) with hc | hc | hc
      · rw [hc]
        show OuterPost i ino q ls
          (Inode.lookupOuterGo i ino q l ((mid : Int) - 1) tb tnd)
        have hmeas : ((mid : Int) - 1 + 1 - (l : Int)).toNat < n := by
          clear ih hI2 hI3 hI4 hmid hd0 hcount hname0 hft0 hnid0 hc
          omega
        have hr₂ : (mid : Int) - 1 ≤ (ino.blocks : Int) - 1 := by
          clear ih hI2 hI3 hI4 hmid hd0 hcount hname0 hft0 hnid0 hc
          omega
        have hI3₂ : ∀ b, b < ino.blocks → (mid : Int) - 1 < (b : Int) →
            nameLt q (fstName ls b) := by
          intro b hb hrb
          by_cases hbm : b = mid
          · rw [hbm]
            exact hc
          · have hmlt : mid < b := by omega
            exact nameLt_trans hc (ctx.fst_mono hmB hb hmlt)
        exact ih _ hmeas _ _ _ _ rfl hl hr₂ hI2 hI3₂ hI4
      · rw [hc]
        show OuterPost i ino q ls (.ok (.inl d0))
        have hq : q = fstName ls mid := compareBytes_eq_zero hc
        refine ⟨by simp, ?_, by simp⟩
        intro d hd
        simp only [Except.ok.injEq, Sum.inl.injEq] at hd
        subst hd
        refine ⟨(ls.getD mid []).getD 0 dfltEntry,
          ctx.block_mem_flatten hmB (ctx.head_mem hmB), ?_, hnid0.symm, hft0.symm⟩
        exact hq.symm
      · rw [hc]
        show OuterPost i ino q ls
          (Inode.lookupOuterGo i ino q (mid + 1) r
            (ino.getBlockDataInfo i mid) (d0.NameOff / DirentSize))
        have hfstlt : nameLt (fstName ls mid) q := compareBytes_neg_of_pos hc
        have hmeas : (r + 1 - ((mid + 1 : Nat) : Int)).toNat < n := by
          clear ih hI2 hI3 hI4 hmid hd0 hcount hname0 hft0 hnid0 hc hfstlt
          omega
        have hl₂ : mid + 1 ≤ ino.blocks := by
          clear ih hI2 hI3 hI4 hmid hd0 hcount hname0 hft0 hnid0 hc hfstlt
          omega
        have hI2₂ : ∀ b, b < mid + 1 → b < ino.blocks → nameLt (fstName ls b) q := by
          intro b hb hbB
          by_cases hbm : b = mid
          · rw [hbm]
            exact hfstlt
          · by_cases hbl : b < l
            · exact hI2 b hbl hbB
            · have hmlt : b < mid := by omega
              exact nameLt_trans (ctx.fst_mono hbB hmB hmlt) hfstlt
        have hI4₂ : (ino.getBlockDataInfo i mid = ⟨0, 0⟩ ∧ d0.NameOff / DirentSize = 0 ∧
            mid + 1 = 0) ∨
            (∃ m, m < ino.blocks ∧ mid + 1 = m + 1 ∧
              ino.getBlockDataInfo i mid = ino.getBlockDataInfo i m ∧
              d0.NameOff / DirentSize = (ls.getD m []).length ∧ nameLt (fstName ls m) q) :=
          Or.inr ⟨mid, hmB, rfl, rfl, hcount, hfstlt⟩
        exact ih _ hmeas _ _ _ _ rfl hl₂ hr hI2₂ hI3 hI4₂

theorem getD_mem {l : List DEntry} {j : Nat} (hj : j < l.length) :
    l.getD j dfltEntry ∈ l := by
  rw [List.getD_eq_getElem?_getD, List.getElem?_eq_getElem hj, Option.getD_some]
  exact List.getElem_mem hj

theorem mem_idx {l : List DEntry} {en : DEntry} (h : en ∈ l) :
    ∃ j, j < l.length ∧ l.getD j dfltEntry = en := by
  obtain ⟨j, hj, hel⟩ := List.mem_iff_getElem.mp h
  refine ⟨j, hj, ?_⟩
  rw [List.getD_eq_getElem?_getD, List.getElem?_eq_getElem hj, Option.getD_some, hel]

theorem LookupCtx.within_idx {i ino ls} (ctx : LookupCtx i ino ls) {m : Nat}
    (hm : m < ino.blocks) {j j₂ : Nat} (hj : j < j₂) (hj₂ : j₂ < (ls.getD m []).length) :
    nameLt ((ls.getD m []).getD j dfltEntry).1 ((ls.getD m []).getD j₂ dfltEntry).1 := by
  have hpw := ctx.within hm
  have hjlen : j < (ls.getD m []).length := by omega
  have := (List.pairwise_iff_getElem.mp hpw) j j₂ hjlen hj₂ hj
  have hgj : (ls.getD m []).getD j dfltEntry = (ls.getD m [])[j] := by
    rw [List.getD_eq_getElem?_getD, List.getElem?_eq_getElem hjlen, Option.getD_some]
  have hgj₂ : (ls.getD m []).getD j₂ dfltEntry = (ls.getD m [])[j₂] := by
    rw [List.getD_eq_getElem?_getD, List.getElem?_eq_getElem hj₂, Option.getD_some]
  rw [hgj, hgj₂]
  exact this

theorem lookupInnerGo_spec {i : Image} {ino : Inode} {ls : List (List DEntry)}
    (ctx : LookupCtx i ino ls) (q : Name) {m : Nat} (hm : m < ino.blocks) :
    ∀ (n dl dr : Nat) (hdl : 1 ≤ dl),
      dr + 1 - dl = n →
      dr ≤ (ls.getD m []).length - 1 →
      (∀ j, j < dl → j < (ls.getD m []).length →
        nameLt ((ls.getD m []).getD j dfltEntry).1 q) →
      (∀ j, dr < j → j < (ls.getD m []).length →
        nameLt q ((ls.getD m []).getD j dfltEntry).1) →
      InnerPost q (ls.getD m [])
        (Inode.lookupInnerGo i ino q (ino.getBlockDataInfo i m)
          (ls.getD m []).length dl dr hdl) := by
  have hlen1 : 1 ≤ (ls.getD m []).length := ctx.block_nonempty hm
  intro n
  induction n using Nat.strong_induction_on with
  | _ n ih =>
    intro dl dr hdl hn hdr hI2 hI3
    by_cases hlr : dl > dr
    · rw [lookupInnerGo_exit _ _ _ _ _ _ _ _ hlr]
      refine ⟨fun e he => by simpa using he.symm, ?_, by simp⟩
      intro _ en hen hname
      obtain ⟨j, hj, hjen⟩ := mem_idx hen
      by_cases hjdl : j < dl
      · have := hI2 j hjdl hj
        rw [hjen, hname] at this
        exact nameLt_irrefl q this
      · have := hI3 j (by omega) hj
        rw [hjen, hname] at this
        exact nameLt_irrefl q this
    · obtain ⟨mid, hmid⟩ : ∃ mid, (dl + dr) >>> 1 = mid := ⟨_, rfl⟩
      have hmid2 : mid = (dl + dr) / 2 := by
        rw [← hmid, Nat.shiftRight_eq_div_pow]
      have hmid1 : 1 ≤ mid := by
        clear ih hI2 hI3 hmid
        omega
      have hmiddr : mid ≤ dr := by
        clear ih hI2 hI3 hmid
        omega
      have hmidlen : mid < (ls.getD m []).length := by
        clear ih hI2 hI3 hmid
        omega
      obtain ⟨dj, hdj, hnamej, hftj, hnidj⟩ := ctx.probeEntry hm (by omega) hmidlen
      rw [lookupInnerGo_probe _ _ _ _ _ _ _ _ mid _ _ hlr hmid hdj hnamej]
      rcases compareBytes_cases q ((ls.getD m []).getD mid dfltEntry).1 with hc | hc | hc
      · rw [hc]
        show InnerPost q (ls.getD m [])
          (Inode.lookupInnerGo i ino q (ino.getBlockDataInfo i m)
            (ls.getD m []).length dl (mid - 1) hdl)
        have hmeas : (mid - 1) + 1 - dl < n := by
          clear ih hI2 hI3 hmid hc
          omega
        have hI3₂ : ∀ j, mid - 1 < j → j < (ls.getD m []).length →
            nameLt q ((ls.getD m []).getD j dfltEntry).1 := by
          intro j hjm hjlen
          by_cases hjmid : j = mid
          · rw [hjmid]
            exact hc
          · have hlt : mid < j := by omega
            exact nameLt_trans hc (ctx.within_idx hm hlt hjlen)
        exact ih _ hmeas dl (mid - 1) hdl rfl (by omega) hI2 hI3₂
      · rw [hc]
        show InnerPost q (ls.getD m []) (.ok dj)
        refine ⟨by simp, by simp, ?_⟩
        intro d hd
        simp only [Except.ok.injEq] at hd
        subst hd
        exact ⟨(ls.getD m []).getD mid dfltEntry, getD_mem hmidlen,
          (compareBytes_eq_zero hc).symm, hnidj.symm, hftj.symm⟩
      · rw [hc]
        show InnerPost q (ls.getD m [])
          (Inode.lookupInnerGo i ino q (ino.getBlockDataInfo i m)
            (ls.getD m []).length (mid + 1) dr (by omega))
        have hqgt : nameLt ((ls.getD m []).getD mid dfltEntry).1 q :=
          compareBytes_neg_of_pos hc
        have hmeas : dr + 1 - (mid + 1) < n := by
          clear ih hI2 hI3 hmid hc hqgt
          omega
        have hI2₂ : ∀ j, j < mid + 1 → j < (ls.getD m []).length →
            nameLt ((ls.getD m []).getD j dfltEntry).1 q := by
          intro j hjm hjlen
          by_cases hjmid : j = mid
          · rw [hjmid]
            exact hqgt
          · by_cases hjdl : j < dl
            · exact hI2 j hjdl hjlen
            · have hlt : j < mid := by omega
              exact nameLt_trans (ctx.within_idx hm hlt hmidlen) hqgt
        exact ih _ hmeas (mid + 1) dr (by omega) rfl hdr hI2₂ hI3

instance : IsTrans (List Nat) nameLt := ⟨fun _ _ _ => nameLt_trans⟩

theorem sorted_name_unique {L : List DEntry} (hpw : List.Pairwise entLt L)
    {en en₂ : DEntry} (h1 : en ∈ L) (h2 : en₂ ∈ L) (he : en.1 = en₂.1) : en = en₂ := by
  induction L with
  | nil => cases h1
  | cons x xs ih =>
    obtain ⟨hx, hxs⟩ := List.pairwise_cons.mp hpw
    rcases List.mem_cons.mp h1 with h1₂ | h1₂ <;> rcases List.mem_cons.mp h2 with h2₂ | h2₂
    · rw [h1₂, h2₂]
    · subst h1₂
      have : nameLt en.1 en₂.1 := hx en₂ h2₂
      rw [he] at this
      exact absurd this (nameLt_irrefl _)
    · subst h2₂
      have : nameLt en₂.1 en.1 := hx en h1₂
      rw [he] at this
      exact absurd this (nameLt_irrefl _)
    · exact ih hxs h1₂ h2₂

/-- The central Lookup correctness result: for a directory whose iteration
succeeds with a strictly sorted entry list and whose block bases are
nonzero, Lookup finds exactly the entries the iteration emitted and fails
with NotFound on all other names. -/
theorem Lookup_spec {i : Image} {ino : Inode} {L : List DEntry}
    (hIter : Inode.iterDirentsList i ino = .ok L)
    (hSorted : List.Chain' nameLt (L.map (fun en => en.1)))
    (hBase : ∀ b, b < ino.blocks → (ino.getBlockDataInfo i b).base ≠ 0) (q : Name) :
    ((∀ en ∈ L, en.1 ≠ q) → Inode.Lookup i ino q = .error .notExist) ∧
    (∀ en ∈ L, en.1 = q →
      ∃ d, Inode.Lookup i ino q = .ok d ∧ d.Nid = en.2.2 ∧ d.FileType = en.2.1) := by
  rw [Inode.iterDirentsList] at hIter
  by_cases hdir : ino.IsDir
  · rw [if_neg (by simp [hdir])] at hIter
    obtain ⟨ls, hlen, hblk₀, hflat⟩ := iterBlocksGo_decomp hIter
    have hblk : ∀ b, b < ino.blocks → Inode.blockEntries i ino b = .ok (ls.getD b []) := by
      intro b hb
      have := hblk₀ b hb
      simpa using this
    have hpwL : List.Pairwise entLt L := by
      have h₁ := List.chain'_iff_pairwise.mp hSorted
      have h₂ := (@List.pairwise_map DEntry Name (fun en : DEntry => en.1) nameLt L).mp h₁
      exact h₂
    have ctx : LookupCtx i ino ls := ⟨hlen, hblk, hflat ▸ hpwL⟩
    have houter := lookupOuterGo_spec ctx q _ 0 ((ino.blocks : Int) - 1) ⟨0, 0⟩ 0 rfl
      (by omega) (by omega) (by intro b hb hrb; exact absurd hb (by omega))
      (by intro b hb hrb; exact absurd hrb (by omega)) (Or.inl ⟨rfl, rfl, rfl⟩)
    rcases hres : Inode.lookupOuterGo i ino q 0 ((ino.blocks : Int) - 1) ⟨0, 0⟩ 0 with e | dd
    · exact absurd hres (houter.1 e)
    · rcases dd with d | tbnd
      · have hLk : Inode.Lookup i ino q = .ok d := by
          rw [Inode.Lookup, if_neg (by simp [hdir]), hres]
        obtain ⟨en₀, hen₀, hname₀, hnid₀, hft₀⟩ := houter.2.1 d hres
        rw [← hflat] at hen₀
        constructor
        · intro hAbs
          exact absurd hname₀ (hAbs en₀ hen₀)
        · intro en hen hname
          have heq : en = en₀ := sorted_name_unique hpwL hen hen₀ (by rw [hname, hname₀])
          subst heq
          exact ⟨d, hLk, hnid₀, hft₀⟩
      · rcases tbnd with ⟨tb₂, tnd₂⟩
        rcases houter.2.2 tb₂ tnd₂ hres with ⟨htb, hAbsAll⟩ | ⟨m, hm, htb, htnd, hfst, hExcl⟩
        · have hLk : Inode.Lookup i ino q = .error .notExist := by
            rw [Inode.Lookup, if_neg (by simp [hdir]), hres, htb]
            rfl
          constructor
          · intro _
            exact hLk
          · intro en hen hname
            rw [← hflat] at hAbsAll
            exact absurd hname (hAbsAll en hen)
        · subst htb
          subst htnd
          have hbase : (ino.getBlockDataInfo i m).base ≠ 0 := hBase m hm
          have hLk : Inode.Lookup i ino q =
              Inode.lookupInnerGo i ino q (ino.getBlockDataInfo i m)
                (ls.getD m []).length 1 ((ls.getD m []).length - 1) (Nat.le_refl 1) := by
            rw [Inode.Lookup, if_neg (by simp [hdir]), hres]
            simp only [if_neg hbase]
          have hinner := lookupInnerGo_spec ctx q hm _ 1 ((ls.getD m []).length - 1)
            (Nat.le_refl 1) rfl (by omega)
            (by
              intro j hj hjlen
              have hj0 : j = 0 := by omega
              subst hj0
              exact hfst)
            (by
              intro j hj hjlen
              exact absurd hjlen (by omega))
          rcases hresI : Inode.lookupInnerGo i ino q (ino.getBlockDataInfo i m)
              (ls.getD m []).length 1 ((ls.getD m []).length - 1) (Nat.le_refl 1) with e | d
          · rw [hresI] at hinner hLk
            have he : e = RErr.notExist := hinner.1 e rfl
            subst he
            have hAbsM := hinner.2.1 rfl
            constructor
            · intro _
              exact hLk
            · intro en hen hname
              rw [hflat] at hen
              obtain ⟨b, hb, henb⟩ := mem_flatten_idx hen
              rw [hlen] at hb
              by_cases hbm : b = m
              · subst hbm
                exact absurd hname (hAbsM en henb)
              · exact absurd hname (hExcl b hb hbm en henb)
          · rw [hresI] at hinner hLk
            obtain ⟨en₀, hen₀, hname₀, hnid₀, hft₀⟩ := hinner.2.2 d rfl
            have hen₀L : en₀ ∈ L := by
              rw [hflat]
              exact ctx.block_mem_flatten hm hen₀
            constructor
            · intro hAbs
              exact absurd hname₀ (hAbs en₀ hen₀L)
            · intro en hen hname
              have heq : en = en₀ := sorted_name_unique hpwL hen hen₀L (by rw [hname, hname₀])
              subst heq
              exact ⟨d, hLk, hnid₀, hft₀⟩
  · rw [if_pos (by simp [hdir])] at hIter
    simp at hIter

/-! Concrete evaluations over image A, used for the symlink-cycle claim. -/

theorem lookupA97 : Inode.Lookup fsA.image inoRootA [97] = .ok ⟨3, 39, FT_SYMLINK, 0⟩ := by
  have h1 : Inode.lookupOuterGo fsA.image inoRootA [97] 0 ((inoRootA.blocks : Int) - 1)
      ⟨0, 0⟩ 0 = .ok (.inr (⟨4128, 40⟩, 3)) := by
    rw [lookupOuterGo_probe _ _ _ _ _ _ _ 0 ⟨0, 36, 2, 0⟩ [46]
      (by decide) (by decide) (by decide) (by decide)]
    rw [show compareBytes [97] [46] = 1 from by decide]
    exact lookupOuterGo_exit _ _ _ _ _ _ _ (by decide)
  have h2 : Inode.lookupInnerGo fsA.image inoRootA [97] ⟨4128, 40⟩ 3 1 2 (by omega) =
      .ok ⟨3, 39, FT_SYMLINK, 0⟩ := by
    rw [lookupInnerGo_probe _ _ _ _ _ _ _ _ 1 ⟨0, 37, 2, 0⟩ [46, 46]
      (by decide) (by decide) (by decide) (by decide)]
    rw [show compareBytes [97] [46, 46] = 1 from by decide]
    rw [lookupInnerGo_probe _ _ _ _ _ _ _ _ 2 ⟨3, 39, 7, 0⟩ [97]
      (by decide) (by decide) (by decide) (by decide)]
    rw [show compareBytes [97] [97] = 0 from by decide]
    rfl
  rw [Inode.Lookup, if_neg (by decide), h1]
  exact h2

theorem deLookupA : (fsA.root).lookup fsA.image [97] = .ok ⟨[97], FT_SYMLINK, 3⟩ := by
  rw [DirEntryM.lookup]
  rw [show (fsA.root).getInode fsA.image = .ok inoRootA from by decide]
  rw [exceptBind_ok, lookupA97]

theorem C1_step (f : Nat) (h : fsA.resolveFuel f [97] false = none) :
    fsA.resolveFuel (f + 1) [97] false = none := by
  rw [Filesystem.resolveFuel]
  show fsA.resolveLoop false [[97]] f 0 fsA.root = none
  rw [Filesystem.resolveLoop]
  simp only [List.length_cons, List.length_nil, Nat.zero_lt_one, dif_pos, List.get_cons_zero,
    deLookupA,
    show (DirEntryM.getInode ⟨[97], FT_SYMLINK, 3⟩ fsA.image) = .ok inoSymA from by decide,
    show inoSymA.IsSymlink = true from by decide,
    show Inode.Readlink fsA.image inoSymA = .ok [97] from by decide,
    show pathClean [97] = [97] from by decide,
    List.take_zero,
    show joinSlash [] = [] from rfl,
    show pathJoin [] [97] = [97] from by decide,
    h]
  simp [deLookupA,
    show (DirEntryM.getInode ⟨[97], FT_SYMLINK, 3⟩ fsA.image) = .ok inoSymA from by decide,
    show inoSymA.IsSymlink = true from by decide,
    show Inode.Readlink fsA.image inoSymA = .ok [97] from by decide,
    show pathClean [97] = [97] from by decide,
    show pathJoin [] [97] = [97] from by decide,
    h]

/-! The checksum collapse lemmas: zeroing the checksum of a populated
superblock yields the same record the population started from, and the
populated checksum is the recomputation over the 2944-byte zero trailer. -/

theorem withChecksum_collapse (sb : SuperBlock) :
    ({ sb.withChecksum with Checksum := 0 } : SuperBlock) = { sb with Checksum := 0 } := by
  cases sb
  rfl

theorem withChecksum_Checksum (sb : SuperBlock) :
    sb.withChecksum.Checksum = recomputeChecksum sb (List.replicate 2944 0) := by
  cases sb
  rfl

theorem withChecksum_BlockSizeBits (sb : SuperBlock) :
    sb.withChecksum.BlockSizeBits = sb.BlockSizeBits := by
  cases sb
  rfl

theorem recompute_withChecksum (sb : SuperBlock) (t : List Nat) :
    recomputeChecksum sb.withChecksum t = recomputeChecksum sb t := by
  rw [recomputeChecksum, recomputeChecksum, withChecksum_collapse]

/-! Concrete evaluations over image B, used for the panic claim. -/

theorem lookupB120 : Inode.Lookup fsB.image inoRootA [120] = .ok ⟨3, 39, FT_REG_FILE, 0⟩ := by
  have h1 : Inode.lookupOuterGo fsB.image inoRootA [120] 0 ((inoRootA.blocks : Int) - 1)
      ⟨0, 0⟩ 0 = .ok (.inr (⟨4128, 40⟩, 3)) := by
    rw [lookupOuterGo_probe _ _ _ _ _ _ _ 0 ⟨0, 36, 2, 0⟩ [46]
      (by decide) (by decide) (by decide) (by decide)]
    rw [show compareBytes [120] [46] = 1 from by decide]
    exact lookupOuterGo_exit _ _ _ _ _ _ _ (by decide)
  have h2 : Inode.lookupInnerGo fsB.image inoRootA [120] ⟨4128, 40⟩ 3 1 2 (by omega) =
      .ok ⟨3, 39, FT_REG_FILE, 0⟩ := by
    rw [lookupInnerGo_probe _ _ _ _ _ _ _ _ 1 ⟨0, 37, 2, 0⟩ [46, 46]
      (by decide) (by decide) (by decide) (by decide)]
    rw [show compareBytes [120] [46, 46] = 1 from by decide]
    rw [lookupInnerGo_probe _ _ _ _ _ _ _ _ 2 ⟨3, 39, 1, 0⟩ [120]
      (by decide) (by decide) (by decide) (by decide)]
    rw [show compareBytes [120] [120] = 0 from by decide]
    rfl
  rw [Inode.Lookup, if_neg (by decide), h1]
  exact h2

theorem deLookupB : (fsB.root).lookup fsB.image [120] = .ok ⟨[120], FT_REG_FILE, 3⟩ := by
  rw [DirEntryM.lookup]
  rw [show (fsB.root).getInode fsB.image = .ok inoRootA from by decide]
  rw [exceptBind_ok, lookupB120]

/-! Claim theorems. -/

/-- Claim C1 (code bug): the path resolver of erofs.go has no symlink hop
bound and never fails with a Loop error. On image A — a valid image whose
root directory contains the symlink "a" whose target is "a", a symlink
cycle reachable from the queried path "a" — resolve([97], false) fails to
return within ANY recursion depth: the fuel counts the Go function's
self-recursive calls, and the result stays `none` (still recursing) for
every fuel, so resolution neither terminates with Loop nor with any other
error, contradicting the claimed 40-hop bound. -/
theorem C1_resolve_diverges_on_symlink_cycle :
    ∀ fuel : Nat, fsA.resolveFuel fuel [97] false = none := by
  intro fuel
  induction fuel with
  | zero => rw [Filesystem.resolveFuel]
  | succ f ih => exact C1_step f ih

/-- Claim C2 (code bug): the create/open round trip loses the tree at an
empty regular file. Image A2 is a valid supported image whose root contains
the empty regular file "a" stored FlatPlain; decoding it succeeds.
Recreating an image from the walked tree (srcC2 mirrors what Create sees
when its source is the opened image A2) plans "a" as a FlatInline extended
record of size 0 (recC2), and decoding that exact record — image C2x holds
its marshalled bytes at its planned nid 3 — fails with the inline-tail
corruption error, so walking the recreated image fails where walking the
original succeeded and the two trees cannot be equal. -/
theorem C2_roundtrip_fails_on_empty_file :
    Image.inode imgA2 3 = .ok inoFileA2 ∧
    inoFileA2.DataLayout = InodeDataLayoutFlatPlain ∧ inoFileA2.size = 0 ∧
    (firstPass srcC2).map (fun st => lookupPath st.plan [[97]]) =
      .ok (some (.extended recC2)) ∧
    isInlined (.extended recC2) = true ∧ (InodeRec.extended recC2).size = 0 ∧
    Image.inode imgC2x 3 = .error .inlineTail := by
  refine ⟨by decide, by decide, by decide, by decide, by decide, by decide, by decide⟩

/-- Claim C5 (code bug): the writer's first pass marks every file of size
at most 1024 — including empty files — FlatInline. For source C5 (a root
directory with one empty regular file "a") the planned record recC5 is
FlatInline with size 0, i.e. tail = 0 mod 4096 = 0, violating the claimed
invariant tail ∈ (0, blocksize − recordsize]; the reader rejects exactly
this record (image C5 holds its marshalled bytes at its planned nid 2)
with the inline-tail corruption error. -/
theorem C5_empty_file_plans_zero_inline_tail :
    (firstPass srcC5).map (fun st => lookupPath st.plan [[97]]) =
      .ok (some (.compact recC5)) ∧
    isInlined (.compact recC5) = true ∧ (InodeRec.compact recC5).size = 0 ∧
    Image.inode imgC5 2 = .error .inlineTail := by
  refine ⟨by decide, by decide, by decide, by decide⟩

/-- Claim C3, counterexample: the superblock the writer builds for the
concrete source srcC3 (an empty root directory) leaves feature_compat at
zero — the superblock-checksum bit (bit 0) is NOT set, refuting the
feature_compat conjunct of the claim at this input (the write itself
succeeds, as the .ok result shows). -/
theorem C3_counterexample_feature_compat_clear :
    (writeSuperBlock srcC3).map
      (fun sb => sb.FeatureCompat &&& FeatureCompatSuperBlockChecksum) = .ok 0 := by
  decide

/-- Claim C8 (code bug): not every failure surfaces as a returned error.
On image B — a valid image whose root directory entry "x" points at an
inode record the decoder rejects (nonzero xattr count, the
unsupported-xattr error) — Stat("x") does not return that error: the Go
dirEntry.getInode helper panics on the failed inode read, modelled by the
`panicked` outcome, so the claimed no-panic error propagation is violated
on an input that open accepts. -/
theorem C8_stat_panics_on_inode_read_error :
    Image.inode imgB 3 = .error .unsupportedXattr ∧
    fsB.Stat 1 [120] = some (.error (.panicked .unsupportedXattr)) := by
  refine ⟨by decide, ?_⟩
  have hres : fsB.resolveFuel 1 [120] false =
      some (.error (.panicked .unsupportedXattr)) := by
    rw [Filesystem.resolveFuel]
    show fsB.resolveLoop false [[120]] 0 0 fsB.root = _
    rw [Filesystem.resolveLoop]
    simp only [List.length_cons, List.length_nil, Nat.zero_lt_one, dif_pos, List.get_cons_zero,
      deLookupB,
      show (DirEntryM.getInode ⟨[120], FT_REG_FILE, 3⟩ fsB.image) =
        .error (.panicked .unsupportedXattr) from by decide]
    simp [deLookupB,
      show (DirEntryM.getInode ⟨[120], FT_REG_FILE, 3⟩ fsB.image) =
        .error (.panicked .unsupportedXattr) from by decide]
  rw [Filesystem.Stat, hres]

/-- Claim C4 (checksum law): for any image whose superblock was produced by
the writer's SuperBlock.checksum population (withChecksum), whose block size
bits are 12 and whose first block is zero beyond the 128 superblock bytes at
offset 1024 (exactly the layout the writer emits), the decoder's
recomputation over the zero trailer returns the stored checksum, and
Image.verifyChecksum accepts the image. -/
theorem C4_checksum_roundtrip (sb₀ : SuperBlock) (i : Image)
    (hsb : i.sb = sb₀.withChecksum) (hbits : sb₀.BlockSizeBits = 12)
    (hzero : ∀ k, 1152 ≤ k → k < 4096 → i.src k % 256 = 0)
    (hsize : 4096 ≤ i.srcSize) :
    recomputeChecksum i.sb (List.replicate 2944 0) = i.sb.Checksum ∧
    i.verifyChecksum = .ok () := by
  have hck : recomputeChecksum i.sb (List.replicate 2944 0) = i.sb.Checksum := by
    rw [hsb, withChecksum_Checksum sb₀, recomputeChecksum, recomputeChecksum,
      withChecksum_collapse]
  refine ⟨hck, ?_⟩
  have hck2 : comp32 (goCrcUpdate (goCrcChecksum
      (marshalSuperBlock { i.sb with Checksum := 0 }))
      (List.replicate 2944 0)) = i.sb.Checksum := hck
  have hbs : i.blockSize = 4096 := by
    rw [Image.blockSize, hsb, SuperBlock.blockSize, withChecksum_BlockSizeBits, hbits]
    decide
  have hbuf : i.bytesAt (SuperBlockOffset + 128) (i.blockSize - (SuperBlockOffset + 128)) =
      .ok (List.replicate 2944 0) := by
    rw [hbs]
    have hoff : SuperBlockOffset = 1024 := rfl
    rw [Image.bytesAt, if_pos (by omega)]
    refine congrArg Except.ok ?_
    rw [List.eq_replicate_iff]
    refine ⟨by simp [hoff], ?_⟩
    intro b hb
    simp only [List.mem_map, List.mem_range] at hb
    obtain ⟨k, hk, rfl⟩ := hb
    refine hzero _ (by omega) (by omega)
  rw [Image.verifyChecksum]
  by_cases hf : i.sb.FeatureCompat &&& FeatureCompatSuperBlockChecksum = 0
  · rw [if_pos hf]
  · rw [if_neg hf]
    simp only [hbuf, hck2, ne_eq, not_true_eq_false, if_false, ite_false]

/-- Witness for the checksum law at image W: a populated superblock over an
all-zero first block, with the checksum feature bit set. -/
theorem C4_checksum_roundtrip_witness :
    recomputeChecksum imgW.sb (List.replicate 2944 0) = imgW.sb.Checksum ∧
    imgW.verifyChecksum = .ok () :=
  C4_checksum_roundtrip sbW imgW rfl rfl (fun k h1 h2 => rfl) (by decide)

/-- Claim C3, amended: the superblock the writer emits has the claimed
magic, block size bits (12), inode count, block count and metadata base
block, its root nid and all other fields left zero — in particular
feature_compat is 0, NOT the checksum feature bit — and its checksum is
populated so that the decoder recomputation over the zero trailer returns
the stored value. -/
theorem C3_amended_superblock_fields (src : FNode) (sb : SuperBlock)
    (h : writeSuperBlock src = .ok sb) :
    ∃ st, firstPass src = .ok st ∧
      sb.Magic = SuperBlockMagicV1 ∧ sb.BlockSizeBits = 12 ∧
      sb.Inodes = st.plan.length % 2 ^ 64 ∧
      sb.Blocks = (1 + (st.metaSize + st.dataSize) / BlockSize) % 2 ^ 32 ∧
      sb.MetaBlockAddr = 1 ∧ sb.RootNid = 0 ∧ sb.FeatureCompat = 0 ∧
      sb.Checksum = recomputeChecksum sb (List.replicate 2944 0) := by
  rw [writeSuperBlock] at h
  cases hfp : firstPass src with
  | error e =>
    rw [hfp, exceptBind_error] at h
    exact absurd h (by simp)
  | ok st =>
    rw [hfp, exceptBind_ok] at h
    injection h with h2
    refine ⟨st, rfl, ?_⟩
    rw [← h2]
    refine ⟨rfl, rfl, rfl, rfl, rfl, rfl, rfl, ?_⟩
    rw [withChecksum_Checksum, recompute_withChecksum]

/-- Witness for the amended superblock-field theorem at the concrete source
srcC3, whose emitted superblock is sbC3. -/
theorem C3_amended_superblock_fields_witness :
    ∃ st, firstPass srcC3 = .ok st ∧
      sbC3.Magic = SuperBlockMagicV1 ∧ sbC3.BlockSizeBits = 12 ∧
      sbC3.Inodes = st.plan.length % 2 ^ 64 ∧
      sbC3.Blocks = (1 + (st.metaSize + st.dataSize) / BlockSize) % 2 ^ 32 ∧
      sbC3.MetaBlockAddr = 1 ∧ sbC3.RootNid = 0 ∧ sbC3.FeatureCompat = 0 ∧
      sbC3.Checksum = recomputeChecksum sbC3 (List.replicate 2944 0) :=
  C3_amended_superblock_fields srcC3 sbC3 rfl

/-- The uniform-view fields finishInode never touches: it only sets blocks,
idataOff and dataOff, so format, mtime and mtimeNsec come through unchanged
from its base argument. -/
theorem finishInode_fields {i : Image} {off inodeSize rawBlockAddr : Nat} {base ino : Inode}
    (h : i.finishInode off inodeSize rawBlockAddr base = .ok ino) :
    ino.format = base.format ∧ ino.mtime = base.mtime ∧ ino.mtimeNsec = base.mtimeNsec := by
  simp only [Image.finishInode] at h
  split at h
  · split at h
    · exact absurd h (by simp)
    · injection h with h2
      rw [← h2]
      exact ⟨rfl, rfl, rfl⟩
  · split at h
    · injection h with h2
      rw [← h2]
      exact ⟨rfl, rfl, rfl⟩
    · exact absurd h (by simp)

/-- Claim C9: timestamp sourcing of the uniform inode view. Whenever
Image.inode succeeds, a compact-layout result takes its mtime and mtimeNsec
from the superblock build time, and an extended-layout result takes them
from the extended record's own Mtime and MtimeNsec fields. -/
theorem C9_mtime_sourcing (i : Image) (nid : Nat) (ino : Inode)
    (h : Image.inode i nid = .ok ino) :
    (ino.Layout = InodeLayoutCompact →
      ino.mtime = i.sb.BuildTime ∧ ino.mtimeNsec = i.sb.BuildTimeNsec) ∧
    (∀ x, i.inodeExtendedAt (i.sb.nidToOffset nid) = .ok x →
      ino.Layout = InodeLayoutExtended →
      ino.mtime = x.Mtime ∧ ino.mtimeNsec = x.MtimeNsec) := by
  simp only [Image.inode] at h
  cases hfmt : i.inodeFormatAt (i.sb.nidToOffset nid) with
  | error e =>
    rw [hfmt, exceptBind_error] at h
    exact absurd h (by simp)
  | ok format =>
    rw [hfmt, exceptBind_ok] at h
    cases hbr : bitRange format InodeLayoutBit InodeLayoutBits with
    | zero =>
      rw [hbr] at h
      have h0 : (do
          let c ← i.inodeCompactAt (i.sb.nidToOffset nid)
          if c.XattrCount ≠ 0 then (Except.error RErr.unsupportedXattr : Except RErr Inode)
          else (i.finishInode (i.sb.nidToOffset nid) 32 c.RawBlockAddr
            { dataOff := 0, idataOff := 0, blocks := 0, format := format,
              mode := c.Mode, nid := nid, size := c.Size,
              mtime := i.sb.BuildTime, mtimeNsec := i.sb.BuildTimeNsec,
              uid := c.UID, gid := c.GID, nlink := c.Nlink })) = .ok ino := h
      cases hc : i.inodeCompactAt (i.sb.nidToOffset nid) with
      | error e =>
        rw [hc, exceptBind_error] at h0
        exact absurd h0 (by simp)
      | ok c =>
        rw [hc, exceptBind_ok] at h0
        split at h0
        · exact absurd h0 (by simp)
        · obtain ⟨hfm, hmt, hns⟩ := finishInode_fields h0
          constructor
          · intro hlay
            exact ⟨hmt, hns⟩
          · intro x hxeq hlay
            have hfmt2 : ino.format = format := hfm
            rw [Inode.Layout, hfmt2, hbr] at hlay
            exact absurd hlay (by decide)
    | succ n =>
      cases n with
      | zero =>
        rw [hbr] at h
        have h1 : (do
            let x ← i.inodeExtendedAt (i.sb.nidToOffset nid)
            if x.XattrCount ≠ 0 then (Except.error RErr.unsupportedXattr : Except RErr Inode)
            else (i.finishInode (i.sb.nidToOffset nid) 64 x.RawBlockAddr
              { dataOff := 0, idataOff := 0, blocks := 0, format := format,
                mode := x.Mode, nid := nid, size := x.Size,
                mtime := x.Mtime, mtimeNsec := x.MtimeNsec,
                uid := x.UID, gid := x.GID, nlink := x.Nlink })) = .ok ino := h
        cases hx : i.inodeExtendedAt (i.sb.nidToOffset nid) with
        | error e =>
          rw [hx, exceptBind_error] at h1
          exact absurd h1 (by simp)
        | ok x₀ =>
          rw [hx, exceptBind_ok] at h1
          split at h1
          · exact absurd h1 (by simp)
          · obtain ⟨hfm, hmt, hns⟩ := finishInode_fields h1
            constructor
            · intro hlay
              have hfmt2 : ino.format = format := hfm
              rw [Inode.Layout, hfmt2, hbr] at hlay
              exact absurd hlay (by decide)
            · intro x hxeq hlay
              have hx₀ : x = x₀ := by
                injection hxeq with h3
                exact h3.symm
              rw [hx₀]
              exact ⟨hmt, hns⟩
      | succ m =>
        rw [hbr] at h
        have h2 : (Except.error RErr.unsupportedLayout : Except RErr Inode) = .ok ino := h
        exact absurd h2 (by simp)

/-- Witness for the mtime-sourcing theorem at image A's compact root inode:
its mtime is the superblock build time 1234 with nanoseconds 56. -/
theorem C9_mtime_sourcing_witness :
    inoRootA.mtime = imgA.sb.BuildTime ∧ inoRootA.mtimeNsec = imgA.sb.BuildTimeNsec :=
  (C9_mtime_sourcing imgA 0 inoRootA (by decide)).1 (by decide)

/-- Claim C7: Lookup and IterDirents agree. Whenever the dirent iteration
of a directory inode succeeds with entry list L, the emitted names are
strictly sorted, and every block's data base is nonzero, Lookup finds every
emitted name with exactly the emitted nid and file type, and returns
NotFound for every name the iteration did not emit. -/
theorem C7_lookup_iter_agreement {i : Image} {ino : Inode} {L : List DEntry}
    (hIter : Inode.iterDirentsList i ino = .ok L)
    (hSorted : List.Chain' nameLt (L.map (fun en => en.1)))
    (hBase : ∀ b, b < ino.blocks → (ino.getBlockDataInfo i b).base ≠ 0) (q : Name) :
    ((∀ en ∈ L, en.1 ≠ q) → Inode.Lookup i ino q = .error .notExist) ∧
    (∀ en ∈ L, en.1 = q →
      ∃ d, Inode.Lookup i ino q = .ok d ∧ d.Nid = en.2.2 ∧ d.FileType = en.2.1) :=
  Lookup_spec hIter hSorted hBase q

/-- Witness for the Lookup/IterDirents agreement at image A's root: the
iteration emits ".", ".." and the symlink "a" with nid 3; Lookup finds "a"
with nid 3 and the symlink file type. -/
theorem C7_lookup_iter_agreement_witness :
    ∃ d, Inode.Lookup imgA inoRootA [97] = .ok d ∧ d.Nid = 3 ∧ d.FileType = FT_SYMLINK :=
  (@C7_lookup_iter_agreement imgA inoRootA [([46], 2, 0), ([46, 46], 2, 0), ([97], 7, 3)]
    (by decide) (by simp only [List.map_cons, List.map_nil, List.chain'_cons, List.chain'_singleton, and_true]; exact ⟨by decide, by decide⟩) (by decide) [97]).2 ([97], 7, 3) (by decide) rfl

/-- Claim C6, counterexample: for source C6 — a root containing the
directory "d" which contains the regular file "!" (byte 33, which sorts
before ".") — the writer plans "d"'s payload with dirents in the unsorted
order ".", "..", "!", and on an image holding exactly that payload
(imgC6, whose root inode inoC6 has that payload inline) the dirent
iteration emits "!" with nid 5 but Lookup("!") returns NotFound: the
claimed find-the-entry behaviour fails on the writer's own payload. -/
theorem C6_counterexample_unsorted_payload :
    (firstPass srcC6).map (fun st => direntsForDir st.plan [[100]] entriesD) =
      .ok (.ok (direntsC6, namesC6)) ∧
    namesC6.getD 2 [] = [33] ∧
    encodeDirents direntsC6 namesC6 = payloadC6 ∧
    Inode.iterDirentsList imgC6 inoC6 = .ok [([46], 2, 0), ([46, 46], 2, 0), ([33], 1, 5)] ∧
    Inode.Lookup imgC6 inoC6 [33] = .error .notExist :=
  ⟨by decide, by decide, by decide, by decide, lookupC6eval⟩

/-- Claim C6, amended: first-match semantics holds under the sortedness the
binary search requires. When the iteration of a directory inode succeeds
with entry list L, the emitted names are strictly sorted, and every block
base is nonzero, Lookup returns the first (and only) emitted entry whose
name equals the query — in List.find? form — and NotFound when find? finds
none. -/
theorem C6_amended_lookup_first_match {i : Image} {ino : Inode} {L : List DEntry}
    (hIter : Inode.iterDirentsList i ino = .ok L)
    (hSorted : List.Chain' nameLt (L.map (fun en => en.1)))
    (hBase : ∀ b, b < ino.blocks → (ino.getBlockDataInfo i b).base ≠ 0) (q : Name) :
    (L.find? (fun en => en.1 == q) = none → Inode.Lookup i ino q = .error .notExist) ∧
    (∀ en, L.find? (fun en => en.1 == q) = some en →
      ∃ d, Inode.Lookup i ino q = .ok d ∧ d.Nid = en.2.2 ∧ d.FileType = en.2.1) := by
  have hs := Lookup_spec hIter hSorted hBase q
  constructor
  · intro hnone
    refine hs.1 ?_
    intro en hen hq
    have hp : (fun en : DEntry => en.1 == q) en = true := by simp [hq]
    have hnp := List.find?_eq_none.mp hnone en hen
    exact absurd hp (by simpa using hnp)
  · intro en hfind
    have hmem := List.mem_of_find?_eq_some hfind
    have hp := List.find?_some hfind
    exact hs.2 en hmem (by simpa using hp)

/-- Witness for the amended first-match theorem at image A's root with the
query ".": find? returns the synthetic "." entry (file type directory,
nid 0) and Lookup agrees. -/
theorem C6_amended_lookup_first_match_witness :
    ∃ d, Inode.Lookup imgA inoRootA [46] = .ok d ∧ d.Nid = 0 ∧ d.FileType = 2 :=
  (@C6_amended_lookup_first_match imgA inoRootA [([46], 2, 0), ([46, 46], 2, 0), ([97], 7, 3)]
    (by decide) (by simp only [List.map_cons, List.map_nil, List.chain'_cons, List.chain'_singleton, and_true]; exact ⟨by decide, by decide⟩) (by decide) [46]).2 ([46], 2, 0) (by decide)

/-! Helper lemmas about the writer's plan map and walk order, used for the
synthetic-dirent and root-nid analysis. -/

theorem walkEntries_path_ne_nil : ∀ (es : List (Name × FNode)) (p : WPath),
    ∀ pn ∈ walkEntries es p, pn.1 ≠ []
  | [], p => by
    intro pn hpn
    rw [walkEntries] at hpn
    exact absurd hpn (List.not_mem_nil pn)
  | (nm, c) :: rest, p => by
    intro pn hpn
    rw [walkEntries] at hpn
    rcases List.mem_append.mp hpn with hm | hm
    · cases c with
      | dir m entries =>
        rw [FNode.walk] at hm
        rcases List.mem_cons.mp hm with he | hm₂
        · rw [he]
          simp
        · exact walkEntries_path_ne_nil entries (p ++ [nm]) pn hm₂
      | file m sz =>
        rw [FNode.walk] at hm
        · rcases List.mem_cons.mp hm with he | hm₂
          · rw [he]
            simp
          · exact absurd hm₂ (List.not_mem_nil pn)
        · exact fun m₂ es h₂ => FNode.noConfusion h₂
      | symlink m t =>
        rw [FNode.walk] at hm
        · rcases List.mem_cons.mp hm with he | hm₂
          · rw [he]
            simp
          · exact absurd hm₂ (List.not_mem_nil pn)
        · exact fun m₂ es h₂ => FNode.noConfusion h₂
    · exact walkEntries_path_ne_nil rest p pn hm

theorem lookupPath_map_keyfix (F : (WPath × InodeRec) → (WPath × InodeRec))
    (hF : ∀ e, (F e).1 = e.1) :
    ∀ (plan : List (WPath × InodeRec)) (q : WPath),
      lookupPath (plan.map F) q =
        (plan.find? (fun e => e.1 = q)).map (fun e => (F e).2)
  | [], q => rfl
  | e :: rest, q => by
    by_cases he : e.1 = q
    · have h1 : (decide ((F e).1 = q)) = true := by simp [hF e, he]
      have h2 : (decide (e.1 = q)) = true := by simp [he]
      simp only [lookupPath, List.map_cons, List.find?_cons, h1, h2]
      rfl
    · have h1 : (decide ((F e).1 = q)) = false := by simp [hF e, he]
      have h2 : (decide (e.1 = q)) = false := by simp [he]
      simp only [lookupPath, List.map_cons, List.find?_cons, h1, h2]
      exact lookupPath_map_keyfix F hF rest q

theorem exceptBind_pure {e a : Type} (x : Except e a) :
    (x >>= fun v => (Except.ok v : Except e a)) = x := by
  cases x <;> rfl

theorem lookupPath_update_self (plan : List (WPath × InodeRec)) (p : WPath) (r r₀ : InodeRec)
    (h : lookupPath plan p = some r₀) :
    lookupPath (updatePath plan p r) p = some r := by
  have hmap := lookupPath_map_keyfix (fun e => if e.1 = p then (p, r) else e)
    (by intro e; by_cases he : e.1 = p <;> simp [he]) plan p
  rw [updatePath, hmap]
  rw [lookupPath] at h
  cases hf : plan.find? (fun e => e.1 = p) with
  | none =>
    rw [hf] at h
    exact absurd h (by simp)
  | some e₀ =>
    have he₀ : e₀.1 = p := by simpa using List.find?_some hf
    simp [he₀]

theorem lookupPath_update_ne (plan : List (WPath × InodeRec)) (p q : WPath) (r : InodeRec)
    (h : q ≠ p) :
    lookupPath (updatePath plan p r) q = lookupPath plan q := by
  have hmap := lookupPath_map_keyfix (fun e => if e.1 = p then (p, r) else e)
    (by intro e; by_cases he : e.1 = p <;> simp [he]) plan q
  rw [updatePath, hmap, lookupPath]
  cases hf : plan.find? (fun e => e.1 = q) with
  | none => rfl
  | some e₀ =>
    have he₀ : e₀.1 = q := by simpa using List.find?_some hf
    have hne : ¬(e₀.1 = p) := by
      rw [he₀]
      exact h
    simp [hne]

theorem lookupPath_fix (plan : List (WPath × InodeRec)) (d : Nat) (q : WPath) (r : InodeRec)
    (h : lookupPath plan q = some r) :
    ∃ r₂, lookupPath (firstPassFix plan d) q = some r₂ ∧ r₂.ino = r.ino := by
  have hmap := lookupPath_map_keyfix (fun e =>
      match e.2 with
      | .compact c =>
        if c.RawBlockAddr > 0 then
          (e.1, .compact { c with RawBlockAddr := (c.RawBlockAddr + d) % 2 ^ 32 })
        else e
      | .extended x =>
        if x.RawBlockAddr > 0 then
          (e.1, .extended { x with RawBlockAddr := (x.RawBlockAddr + d) % 2 ^ 32 })
        else e)
    (by
      intro e
      rcases e with ⟨p₀, rc⟩
      cases rc <;> dsimp <;> split <;> rfl) plan q
  rw [firstPassFix, hmap]
  rw [lookupPath] at h
  cases hf : plan.find? (fun e => e.1 = q) with
  | none =>
    rw [hf] at h
    exact absurd h (by simp)
  | some e₀ =>
    rw [hf] at h
    have h2 : e₀.2 = r := by simpa using h
    refine ⟨_, rfl, ?_⟩
    rw [← h2]
    rcases e₀ with ⟨p₀, rc⟩
    cases rc <;> dsimp <;> split <;> simp [InodeRec.ino]

theorem firstPassStep_plan {st st₂ : PlanState} {pn : WPath × FNode}
    (h : firstPassStep st pn = .ok st₂) :
    ∃ r, st₂.plan = updatePath st.plan pn.1 r := by
  simp only [firstPassStep] at h
  split at h
  · simp only [pure_bind] at h
    cases hds : dataSizeForInode st.plan pn.1 pn.2 with
    | error e =>
      simp only [hds, exceptBind_error] at h
      exact absurd h (by simp)
    | ok size =>
      simp only [hds, exceptBind_ok] at h
      rw [offsetToNID] at h
      split at h
      all_goals try split at h
      all_goals try split at h
      all_goals try split at h
      all_goals first
        | (simp only [exceptBind_error] at h
           exact absurd h (by simp))
        | (simp only [exceptBind_ok] at h
           injection h with h2
           exact ⟨_, by rw [← h2]⟩)
        | (injection h with h2
           exact ⟨_, by rw [← h2]⟩)
        | simp at h
  · simp only [exceptBind_error] at h
    exact absurd h (by simp)

theorem foldlM_append_prefix {α : Type}
    (f : List Dirent × List Name → α → Except WErr (List Dirent × List Name))
    (hf : ∀ acc x res, f acc x = .ok res → ∃ d n, res = (acc.1 ++ d, acc.2 ++ n)) :
    ∀ (l : List α) (acc res : List Dirent × List Name),
      l.foldlM f acc = .ok res → ∃ ds ns, res = (acc.1 ++ ds, acc.2 ++ ns)
  | [], acc, res => by
    intro h
    rw [List.foldlM_nil] at h
    injection h with h2
    exact ⟨[], [], by rw [← h2]; simp⟩
  | x :: xs, acc, res => by
    intro h
    rw [List.foldlM_cons] at h
    cases hfx : f acc x with
    | error e =>
      rw [hfx, exceptBind_error] at h
      exact absurd h (by simp)
    | ok acc₂ =>
      rw [hfx, exceptBind_ok] at h
      obtain ⟨ds, ns, hres⟩ := foldlM_append_prefix f hf xs acc₂ res h
      obtain ⟨d, n, hacc₂⟩ := hf acc x acc₂ hfx
      refine ⟨d ++ ds, n ++ ns, ?_⟩
      rw [hres, hacc₂]
      simp

theorem direntsForDir_synthetic (plan : List (WPath × InodeRec)) (p : WPath)
    (entries : List (Name × FNode)) (dn : List Dirent × List Name)
    (hdn : direntsForDir plan p entries = .ok dn) :
    (dn.1.getD 0 ⟨1, 1, 1, 1⟩ = ⟨0, 0, FT_DIR, 0⟩ ∧ dn.2.getD 0 [] = [46]) ∧
    (p ≠ [] → dn.1.getD 1 ⟨1, 1, 1, 1⟩ = ⟨0, 0, FT_DIR, 0⟩ ∧ dn.2.getD 1 [] = [46, 46]) := by
  simp only [direntsForDir] at hdn
  rw [exceptBind_pure] at hdn
  by_cases hp : p = []
  · rw [hp] at hdn
    rw [if_neg (by simp)] at hdn
    obtain ⟨ds, ns, hdn2⟩ := foldlM_append_prefix _
      (by
        intro acc x res h
        cases hlp : lookupPath plan ([] ++ [x.1]) with
        | none =>
          rw [hlp] at h
          exact absurd h (by simp)
        | some c =>
          rw [hlp] at h
          injection h with h2
          exact ⟨_, _, h2.symm⟩)
      entries _ dn hdn
    rw [hdn2]
    refine ⟨⟨rfl, rfl⟩, fun hpne => absurd hp hpne⟩
  · rw [if_pos hp] at hdn
    obtain ⟨ds, ns, hdn2⟩ := foldlM_append_prefix _
      (by
        intro acc x res h
        cases hlp : lookupPath plan (p ++ [x.1]) with
        | none =>
          rw [hlp] at h
          exact absurd h (by simp)
        | some c =>
          rw [hlp] at h
          injection h with h2
          exact ⟨_, _, h2.symm⟩)
      entries _ dn hdn
    rw [hdn2]
    exact ⟨⟨rfl, rfl⟩, fun hpne => ⟨rfl, rfl⟩⟩

theorem firstPassStep_ino0 {st st₂ : PlanState} {pn : WPath × FNode}
    (hms : st.metaSize = 0) (h : firstPassStep st pn = .ok st₂) :
    ∃ r₀ r, lookupPath st.plan pn.1 = some r₀ ∧
      st₂.plan = updatePath st.plan pn.1 r ∧ r.ino = 0 := by
  simp only [firstPassStep, hms] at h
  split at h
  next x r₁ heq =>
    simp only [pure_bind] at h
    cases hds : dataSizeForInode st.plan pn.1 pn.2 with
    | error e =>
      simp only [hds, exceptBind_error] at h
      exact absurd h (by simp)
    | ok size =>
      simp only [hds, exceptBind_ok] at h
      simp only [show roundUp 0 BlockSize = 0 from rfl, Nat.sub_self, gt_iff_lt,
        lt_self_iff_false, false_and, if_false, ite_false, ite_self] at h
      rw [show offsetToNID 0 = Except.ok 0 from rfl] at h
      simp only [exceptBind_ok] at h
      cases r₁ with
      | compact c =>
        refine ⟨InodeRec.compact c,
          InodeRec.compact (planCompact c 0 size (decide (size ≤ MaxInlineDataSize)) st.dataSize),
          heq, ?_, ?_⟩
        · split at h <;> (injection h with h2; rw [← h2])
        · simp only [InodeRec.ino, planCompact]
          split <;> simp
      | extended x =>
        refine ⟨InodeRec.extended x,
          InodeRec.extended (planExtended x 0 size (decide (size ≤ MaxInlineDataSize)) st.dataSize),
          heq, ?_, ?_⟩
        · split at h <;> (injection h with h2; rw [← h2])
        · simp only [InodeRec.ino, planExtended]
          split <;> simp
  next x heq =>
    exact absurd h (by simp [exceptBind_error])

theorem foldlM_root_preserved :
    ∀ (l : List (WPath × FNode)) (st₁ st₂ : PlanState),
      (∀ pn ∈ l, pn.1 ≠ []) →
      l.foldlM firstPassStep st₁ = .ok st₂ →
      lookupPath st₂.plan [] = lookupPath st₁.plan []
  | [], st₁, st₂, hne => by
    intro hf
    rw [List.foldlM_nil] at hf
    injection hf with h2
    rw [← h2]
  | x :: xs, st₁, st₂, hne => by
    intro hf
    rw [List.foldlM_cons] at hf
    cases hs : firstPassStep st₁ x with
    | error e =>
      rw [hs, exceptBind_error] at hf
      exact absurd hf (by simp)
    | ok stm =>
      rw [hs, exceptBind_ok] at hf
      obtain ⟨r, hplan⟩ := firstPassStep_plan hs
      have h1 : lookupPath stm.plan [] = lookupPath st₁.plan [] := by
        rw [hplan]
        exact lookupPath_update_ne st₁.plan x.1 [] r
          (Ne.symm (hne x (List.mem_cons_self x xs)))
      rw [foldlM_root_preserved xs stm st₂ (fun pn hpn => hne pn (List.mem_cons_of_mem x hpn)) hf,
        h1]

theorem firstPass_root_core (src : FNode) (st : PlanState) (tail : List (WPath × FNode))
    (hwalk : FNode.walk src [] = ([], src) :: tail)
    (htail : ∀ pn ∈ tail, pn.1 ≠ [])
    (hfp : firstPass src = .ok st) :
    ∃ r, lookupPath st.plan [] = some r ∧ r.ino = 0 := by
  simp only [firstPass] at hfp
  rw [hwalk, List.foldlM_cons] at hfp
  cases hstep : firstPassStep ⟨populateInodes src, 0, 0⟩ ([], src) with
  | error e =>
    simp only [hstep, exceptBind_error] at hfp
    exact absurd hfp (by simp)
  | ok st₁ =>
    rw [hstep, exceptBind_ok] at hfp
    cases hrest : tail.foldlM firstPassStep st₁ with
    | error e =>
      rw [hrest, exceptBind_error] at hfp
      exact absurd hfp (by simp)
    | ok st₂ =>
      rw [hrest, exceptBind_ok] at hfp
      obtain ⟨r₀, r, hlp, hplan, hino⟩ := firstPassStep_ino0 rfl hstep
      have h1 : lookupPath st₁.plan [] = some r := by
        rw [hplan]
        exact lookupPath_update_self _ _ _ _ hlp
      have h2 : lookupPath st₂.plan [] = some r := by
        rw [foldlM_root_preserved tail st₁ st₂ htail hrest, h1]
      injection hfp with h3
      obtain ⟨r₂, hlk₂, hino₂⟩ := lookupPath_fix st₂.plan
        (1 + roundUp st₂.metaSize BlockSize / BlockSize) [] r h2
      refine ⟨r₂, ?_, hino₂.trans hino⟩
      rw [← h3]
      exact hlk₂

theorem firstPass_root_ino (src : FNode) (st : PlanState) (hfp : firstPass src = .ok st) :
    ∃ r, lookupPath st.plan [] = some r ∧ r.ino = 0 := by
  cases src with
  | dir m entries =>
    exact firstPass_root_core (FNode.dir m entries) st (walkEntries entries [])
      (by rw [FNode.walk]) (walkEntries_path_ne_nil entries []) hfp
  | file m sz =>
    refine firstPass_root_core (FNode.file m sz) st [] ?_ (by simp) hfp
    rw [FNode.walk]
    exact fun m₂ es h₂ => FNode.noConfusion h₂
  | symlink m t =>
    refine firstPass_root_core (FNode.symlink m t) st [] ?_ (by simp) hfp
    rw [FNode.walk]
    exact fun m₂ es h₂ => FNode.noConfusion h₂

/-- Claim C10: every directory payload the writer builds starts with a
synthetic "." entry whose nid field is zero-valued, followed for non-root
directories by a synthetic ".." entry whose nid field is also zero-valued;
and the writer's first pass plans the root inode itself with ino 0 (the Go
composite literals leave Nid unset and the root record is planned at
metadata offset 0). -/
theorem C10_synthetic_dirents_and_root_ino (src : FNode) (st : PlanState)
    (hfp : firstPass src = .ok st)
    (plan : List (WPath × InodeRec)) (p : WPath) (entries : List (Name × FNode))
    (dn : List Dirent × List Name) (hdn : direntsForDir plan p entries = .ok dn) :
    (dn.1.getD 0 ⟨1, 1, 1, 1⟩ = ⟨0, 0, FT_DIR, 0⟩ ∧ dn.2.getD 0 [] = [46]) ∧
    (p ≠ [] → dn.1.getD 1 ⟨1, 1, 1, 1⟩ = ⟨0, 0, FT_DIR, 0⟩ ∧ dn.2.getD 1 [] = [46, 46]) ∧
    (∃ r, lookupPath st.plan [] = some r ∧ r.ino = 0) := by
  obtain ⟨hA, hB⟩ := direntsForDir_synthetic plan p entries dn hdn
  exact ⟨hA, hB, firstPass_root_ino src st hfp⟩

/-- Witness for the synthetic-dirent and root-ino theorem at the source
srcC3 (plan state stC3) and the dirent build of an empty directory at the
non-root path "d" (payload dnW). -/
theorem C10_synthetic_dirents_and_root_ino_witness :
    (dnW.1.getD 0 ⟨1, 1, 1, 1⟩ = ⟨0, 0, FT_DIR, 0⟩ ∧ dnW.2.getD 0 [] = [46]) ∧
    (([[100]] : WPath) ≠ [] → dnW.1.getD 1 ⟨1, 1, 1, 1⟩ = ⟨0, 0, FT_DIR, 0⟩ ∧
      dnW.2.getD 1 [] = [46, 46]) ∧
    (∃ r, lookupPath stC3.plan [] = some r ∧ r.ino = 0) :=
  C10_synthetic_dirents_and_root_ino srcC3 stC3 (by decide) [] [[100]] [] dnW (by decide)

end Erofs
